import Mathlib

/-!
# VirtualFileSystem: block allocator, storage region and directory table

A shallow embedding of `source_NoGUI.cpp`.  The class `VirtualFileSystem`
becomes a record of its five members and every member function becomes a
function from a state (and the bytes the user supplied) to the printed
message and the next state.

Conventions of the embedding:

* `size_t` and `unsigned long` are 64-bit, `int` is 32-bit.  Values are `Nat`;
  a reduction modulo `2 ^ 64` is written out where the source can wrap
  (`usagePercent`, the parsed position).
* `queue<size_t> freeBlocks` is a list whose head is the front of the queue;
  `stack<size_t> freedBlocks` is a list whose head is the top of the stack.
* `vector<char> disk` is a function from byte offsets to bytes.
* `list<FileEntry> directory` is a list of nodes; a node carries the address
  that a `list<FileEntry>::iterator` designates.
* `map<string, iterator> directoryIndex` is an association list from names to
  node addresses (the source never iterates over the map, so only its
  contents matter, not the order of its keys).
* Interactive input is a parameter: the file name, the bytes read back from
  the editor's temporary file, the value returned by `stoul`.
-/

namespace VFS

/-- One `char` of the disk or of a file's content. -/
abbrev Byte := UInt8

/-! ## Disk specifications -/

def DISK_SIZE : Nat := 10 * 1024 * 1024
def DIRECTORY_SPACE_SIZE : Nat := 1 * 1024 * 1024
def METADATA_SPACE_SIZE : Nat := 1 * 1024 * 1024
def DATA_SPACE_SIZE : Nat := 8 * 1024 * 1024
def BLOCK_SIZE : Nat := 1024
def MAX_DIRECTORY_ENTRIES : Nat := DIRECTORY_SPACE_SIZE / 500

/-- The number of data blocks, `blockCount` in the constructor. -/
def blockCount : Nat := DATA_SPACE_SIZE / BLOCK_SIZE

/-- Number of values of a `size_t` (and of an `unsigned long`). -/
def SIZE_MOD : Nat := 2 ^ 64

/-- Number of values of an `int`. -/
def INT_MOD : Nat := 2 ^ 32

/-! ## FileEntry -/

/-- The class `FileEntry`: name, owned block indices, byte size. -/
structure FileEntry where
  name : String
  blocks : List Nat
  size : Nat
deriving DecidableEq, Repr

namespace FileEntry

def getName (f : FileEntry) : String := f.name

/-- The getter `getBlocks` returns the vector by value: the result is a copy,
and nothing done to the result reaches the entry. -/
def getBlocks (f : FileEntry) : List Nat := f.blocks

def getSize (f : FileEntry) : Nat := f.size

def setSize (f : FileEntry) (newSize : Nat) : FileEntry := { f with size := newSize }

end FileEntry

/-- A node of `list<FileEntry> directory`: the entry, and the address by which
an iterator designates the node. -/
structure DirNode where
  addr : Nat
  entry : FileEntry
deriving DecidableEq, Repr

/-- The members of the class `VirtualFileSystem`.  `nextAddr` is the address
the next list node will get (a node keeps its address for its whole life).
`disk` gives the byte at every offset; the source's vector has `DISK_SIZE`
bytes and an access past them (a block index of `blockCount` or more) is out
of bounds there, so what is said about disk content holds for the code where
the block indices are below `blockCount`. -/
structure VirtualFileSystem where
  disk : Nat → Byte
  freeBlocks : List Nat
  freedBlocks : List Nat
  directory : List DirNode
  directoryIndex : List (String × Nat)
  nextAddr : Nat

/-- What an operation printed last. -/
inductive Message where
  | diskFull        -- "Disk full or >80% used. Delete files first."
  | fileExists      -- "File exists." / "Exists."
  | cannotOpen      -- "Cannot open."
  | notEnoughSpace  -- "Not enough space."
  | created         -- "Created."
  | copiedIn        -- "Copied in."
  | noFiles         -- "No files."
  | invalid         -- "Invalid."
  | restoring       -- "No space; restoring."
  | modified        -- "Modified."
  | deleted         -- "Deleted."
  | viewed (name : String) (content : List Byte)  -- "--- name ---" and the content
deriving DecidableEq, Repr

namespace VirtualFileSystem

/-- The constructor: a zeroed disk and `freeBlocks` holding `0 .. blockCount-1`
in increasing order, front first. -/
def init : VirtualFileSystem :=
  { disk := fun _ => 0
    freeBlocks := List.range' 0 blockCount
    freedBlocks := []
    directory := []
    directoryIndex := []
    nextAddr := 0 }

/-- The `size_t usedSpace` of `usagePercent`: an unsigned subtraction, which
wraps modulo `2 ^ 64` when the free pools hold more than `DATA_SPACE_SIZE`
bytes worth of indices. -/
def usedSpace (s : VirtualFileSystem) : Nat :=
  let totalSpace := DATA_SPACE_SIZE
  let freeSpace := s.freeBlocks.length + s.freedBlocks.length
  (totalSpace + SIZE_MOD - (freeSpace * BLOCK_SIZE) % SIZE_MOD) % SIZE_MOD

/-- The function `usagePercent`.  The quotient is taken in the rationals:
`totalSpace` is a power of two, so the `double` quotient is exact for every
`usedSpace` below `2 ^ 53`; a larger `usedSpace` (only a wrapped one is) gives a
`double` of at least `2 ^ 30`, on the same side of `0.8` and of `1` as the
rational. -/
def usagePercent (s : VirtualFileSystem) : ℚ :=
  (usedSpace s : ℚ) / (DATA_SPACE_SIZE : ℚ)

/-- One of the two `while` loops of `allocateBlocks`: while the pool is not
empty and `alloc.size() < blocksNeeded`, move the head of the pool to the back
of `alloc`.  Returns the remaining pool and `alloc`. -/
def drain (blocksNeeded : Nat) : List Nat → List Nat → List Nat × List Nat
  | [], alloc => ([], alloc)
  | b :: rest, alloc =>
    if alloc.length < blocksNeeded then drain blocksNeeded rest (alloc ++ [b])
    else (b :: rest, alloc)

/-- The loop `for (auto i : blocks) freedBlocks.push(i)`. -/
def pushAll (freedBlocks : List Nat) (blocks : List Nat) : List Nat :=
  blocks.foldl (fun st i => i :: st) freedBlocks

/-- The function `allocateBlocks` on the length of a `string`: the returned
vector and the state after the call.  `bytes + BLOCK_SIZE - 1` does not wrap
for such a length; `allocateBlocksSizeT` is the function on every `size_t`. -/
def allocateBlocks (s : VirtualFileSystem) (bytes : Nat) : List Nat × VirtualFileSystem :=
  let blocksNeeded := (bytes + BLOCK_SIZE - 1) / BLOCK_SIZE
  -- first try stack (freed blocks)
  let r1 := drain blocksNeeded s.freedBlocks []
  -- second try queue (free blocks)
  let r2 := drain blocksNeeded s.freeBlocks r1.2
  if r2.2.length < blocksNeeded then
    -- rollback
    ([], { s with freeBlocks := r2.1, freedBlocks := pushAll r1.1 r2.2 })
  else
    (r2.2, { s with freeBlocks := r2.1, freedBlocks := r1.1 })

/-- The function `allocateBlocks` on every `size_t` argument: `blocksNeeded` is
computed in `size_t` as at line 109, so the sum `bytes + BLOCK_SIZE - 1` wraps
modulo `2 ^ 64` for the last `BLOCK_SIZE - 1` values of the type. -/
def allocateBlocksSizeT (s : VirtualFileSystem) (bytes : Nat) :
    List Nat × VirtualFileSystem :=
  let blocksNeeded := ((bytes + BLOCK_SIZE - 1) % SIZE_MOD) / BLOCK_SIZE
  -- first try stack (freed blocks)
  let r1 := drain blocksNeeded s.freedBlocks []
  -- second try queue (free blocks)
  let r2 := drain blocksNeeded s.freeBlocks r1.2
  if r2.2.length < blocksNeeded then
    -- rollback
    ([], { s with freeBlocks := r2.1, freedBlocks := pushAll r1.1 r2.2 })
  else
    (r2.2, { s with freeBlocks := r2.1, freedBlocks := r1.1 })

/-- The function `freeAllocatedBlocks`. -/
def freeAllocatedBlocks (s : VirtualFileSystem) (blocks : List Nat) : VirtualFileSystem :=
  { s with freedBlocks := pushAll s.freedBlocks blocks }

/-- Byte offset of block `b` in the disk. -/
def blockOffset (b : Nat) : Nat :=
  DIRECTORY_SPACE_SIZE + METADATA_SPACE_SIZE + b * BLOCK_SIZE

/-- The call `memcpy(&disk[offset], src, n)`. -/
def memcpy (disk : Nat → Byte) (offset : Nat) (src : List Byte) (n : Nat) : Nat → Byte :=
  fun i => if offset ≤ i ∧ i < offset + n then src.getD (i - offset) 0 else disk i

/-- The loop of `writeToDisk`, from position `pos` of `data`. -/
def writeLoop (data : List Byte) : List Nat → Nat → (Nat → Byte) → (Nat → Byte)
  | [], _, disk => disk
  | b :: rest, pos, disk =>
    let toWrite := min BLOCK_SIZE (data.length - pos)
    let offset := blockOffset b
    writeLoop data rest (pos + toWrite) (memcpy disk offset (data.drop pos) toWrite)

/-- The function `writeToDisk`. -/
def writeToDisk (s : VirtualFileSystem) (blocks : List Nat) (data : List Byte) :
    VirtualFileSystem :=
  { s with disk := writeLoop data blocks 0 s.disk }

/-- The call `out.append(&disk[offset], toRead)`: the bytes appended. -/
def diskBytes (disk : Nat → Byte) (offset toRead : Nat) : List Byte :=
  (List.range toRead).map (fun k => disk (offset + k))

/-- The loop of `readFromDisk`. -/
def readLoop (disk : Nat → Byte) : List Nat → Nat → List Byte → List Byte
  | [], _, out => out
  | b :: rest, remaining, out =>
    let toRead := min BLOCK_SIZE remaining
    let offset := blockOffset b
    readLoop disk rest (remaining - toRead) (out ++ diskBytes disk offset toRead)

/-- The function `readFromDisk`. -/
def readFromDisk (s : VirtualFileSystem) (f : FileEntry) : List Byte :=
  readLoop s.disk f.getBlocks f.getSize []

/-- The test `directoryIndex.count(name)`. -/
def indexCount (s : VirtualFileSystem) (name : String) : Bool :=
  s.directoryIndex.any (fun kv => kv.1 == name)

/-- The assignment `directoryIndex[name] = i`. -/
def indexSet (idx : List (String × Nat)) (name : String) (i : Nat) : List (String × Nat) :=
  (name, i) :: idx.filter (fun kv => kv.1 != name)

/-- The call `directoryIndex.erase(name)`. -/
def indexErase (idx : List (String × Nat)) (name : String) : List (String × Nat) :=
  idx.filter (fun kv => kv.1 != name)

/-- The guard shared by `createFile` and `copyFromWindows`. -/
def diskFull (s : VirtualFileSystem) : Prop :=
  s.directory.length ≥ MAX_DIRECTORY_ENTRIES ∨ usagePercent s > 0.8

/-- The guard is decided in integer arithmetic: `usedSpace / DATA_SPACE_SIZE`
exceeds `0.8` exactly when `5 * usedSpace` exceeds `4 * DATA_SPACE_SIZE`. -/
instance decidableDiskFull (s : VirtualFileSystem) : Decidable (diskFull s) :=
  decidable_of_iff
    (s.directory.length ≥ MAX_DIRECTORY_ENTRIES ∨ 4 * DATA_SPACE_SIZE < 5 * usedSpace s)
    (by
      unfold diskFull usagePercent DATA_SPACE_SIZE
      have h : (4 * (8 * 1024 * 1024) < 5 * usedSpace s) ↔
          ((usedSpace s : ℚ) / ((8 * 1024 * 1024 : ℕ) : ℚ) > 0.8) := by
        have hq : (4 * (8 * 1024 * 1024) < 5 * usedSpace s) ↔
            ((4 * (8 * 1024 * 1024) : ℚ) < 5 * (usedSpace s : ℚ)) := by
          constructor
          · intro h; exact_mod_cast h
          · intro h; exact_mod_cast h
        rw [hq, gt_iff_lt, lt_div_iff₀ (by norm_num)]
        push_cast
        constructor
        · intro h; linarith
        · intro h; linarith
      rw [h])

/-- The common tail of `createFile` and `copyFromWindows`, from the name check
on; `ok` is the message of the success path. -/
def store (s : VirtualFileSystem) (name : String) (data : List Byte) (ok : Message) :
    Message × VirtualFileSystem :=
  if indexCount s name then (Message.fileExists, s)
  else
    let r := allocateBlocks s data.length
    if r.1.isEmpty then (Message.notEnoughSpace, r.2)
    else
      let s2 := writeToDisk r.2 r.1 data
      (ok, { s2 with
              directory := s2.directory ++ [⟨s2.nextAddr, ⟨name, r.1, data.length⟩⟩]
              directoryIndex := indexSet s2.directoryIndex name s2.nextAddr
              nextAddr := s2.nextAddr + 1 })

/-- The function `createFile`; `name` is the line typed by the user, asked for
only after the capacity guard let the request through, and `data` the content
of the temporary file after editing, read only when the name is new. -/
def createFile (s : VirtualFileSystem) (name : String) (data : List Byte) :
    Message × VirtualFileSystem :=
  if diskFull s then (Message.diskFull, s)
  else store s name data Message.created

/-- The part of `path` after its last slash or backslash (the whole path when
it has none). -/
def fileNameOf (path : String) : String :=
  String.mk ((path.toList.reverse.takeWhile
    (fun c => c != Char.ofNat 92 && c != Char.ofNat 47)).reverse)

/-- The function `copyFromWindows`; `path` is the line typed by the user, asked
for only after the capacity guard let the request through, and `file` the
content of the host file at `path`, or `none` when it cannot be opened. -/
def copyFromWindows (s : VirtualFileSystem) (path : String) (file : Option (List Byte)) :
    Message × VirtualFileSystem :=
  if diskFull s then (Message.diskFull, s)
  else
    match file with
    | none => (Message.cannotOpen, s)
    | some data => store s (fileNameOf path) data Message.copiedIn

/-- The value of `index` in the comparison `index >= directory.size()`, for
`p` the value returned by `stoul`: `stoul(s) - 1` is computed in
`unsigned long`, narrowed to `int`, and converted to `size_t` for the
comparison. -/
def indexOfPosition (p : Nat) : Nat :=
  let u := (p % SIZE_MOD + SIZE_MOD - 1) % SIZE_MOD
  let i := u % INT_MOD
  if i < INT_MOD / 2 then i else SIZE_MOD - INT_MOD + i

/-- The function `listAndView`, for a typed position `p`. -/
def listAndView (s : VirtualFileSystem) (p : Nat) : Message × VirtualFileSystem :=
  if s.directory.isEmpty then (Message.noFiles, s)
  else
    let index := indexOfPosition p
    if index ≥ s.directory.length then (Message.invalid, s)
    else
      match s.directory.get? index with
      | none => (Message.invalid, s)
      | some j => (Message.viewed j.entry.getName (readFromDisk s j.entry), s)

/-- Replace the entry of the node at `index`. -/
def setEntry (directory : List DirNode) (index : Nat) (f : FileEntry → FileEntry) :
    List DirNode :=
  directory.modify (fun n => { n with entry := f n.entry }) index

/-- The function `modifyFile`, for a typed position `p` and the content `data`
of the temporary file after editing.

Both branches end with `j->getBlocks() = move(...)`.  `getBlocks` returns a
copy, so the assignment changes that temporary copy and the entry keeps the
block list it had; only `setSize` reaches the entry. -/
def modifyFile (s : VirtualFileSystem) (p : Nat) (data : List Byte) :
    Message × VirtualFileSystem :=
  if s.directory.isEmpty then (Message.noFiles, s)
  else
    let index := indexOfPosition p
    if index ≥ s.directory.length then (Message.invalid, s)
    else
      match s.directory.get? index with
      | none => (Message.invalid, s)
      | some j =>
        let oldData := readFromDisk s j.entry
        -- free old blocks from disk
        let s1 := freeAllocatedBlocks s j.entry.getBlocks
        -- allocate new blocks for the file
        let r := allocateBlocks s1 data.length
        if r.1.isEmpty then
          -- if not enough space, restore old data
          let r2 := allocateBlocks r.2 oldData.length
          let s3 := writeToDisk r2.2 r2.1 oldData
          -- `j->getBlocks() = move(restore)` assigns to the copy returned by `getBlocks`
          (Message.restoring, s3)
        else
          let s3 := writeToDisk r.2 r.1 data
          -- `j->getBlocks() = move(newBlocks)` assigns to the copy returned by `getBlocks`;
          -- `j->setSize(data.size())` changes the entry
          (Message.modified,
            { s3 with directory := setEntry s3.directory index (fun f => f.setSize data.length) })

/-- The function `deleteFile`, for a typed position `p`. -/
def deleteFile (s : VirtualFileSystem) (p : Nat) : Message × VirtualFileSystem :=
  if s.directory.isEmpty then (Message.noFiles, s)
  else
    let index := indexOfPosition p
    if index ≥ s.directory.length then (Message.invalid, s)
    else
      match s.directory.get? index with
      | none => (Message.invalid, s)
      | some j =>
        let s1 := freeAllocatedBlocks s j.entry.getBlocks
        (Message.deleted,
          { s1 with
            directoryIndex := indexErase s1.directoryIndex j.entry.getName
            directory := s1.directory.eraseIdx index })

end VirtualFileSystem

/-- A request of the menu loop that can change the state. -/
inductive Op where
  | createFile (name : String) (data : List Byte)
  | copyFromWindows (path : String) (file : Option (List Byte))
  | modifyFile (p : Nat) (data : List Byte)
  | deleteFile (p : Nat)

/-- The state after one request. -/
def step (s : VirtualFileSystem) : Op → VirtualFileSystem
  | Op.createFile name data => (s.createFile name data).2
  | Op.copyFromWindows path file => (s.copyFromWindows path file).2
  | Op.modifyFile p data => (s.modifyFile p data).2
  | Op.deleteFile p => (s.deleteFile p).2

/-- The state after a sequence of requests, first request first. -/
def run (s : VirtualFileSystem) (ops : List Op) : VirtualFileSystem :=
  ops.foldl step s

/-- The states the program can be in: the freshly constructed system, and any
state obtained from a reachable one by a create, modify or delete request. -/
inductive Reachable : VirtualFileSystem → Prop where
  | init : Reachable VirtualFileSystem.init
  | step (s : VirtualFileSystem) (op : Op) : Reachable s → Reachable (step s op)

/-- The value `blocksNeeded` that `allocateBlocks` computes for `n` bytes. -/
def blocksFor (n : Nat) : Nat := (n + BLOCK_SIZE - 1) / BLOCK_SIZE

/-- The quotient `ceil(n / BLOCK_SIZE)` as the specification writes it: the
least natural number not below the rational `n / BLOCK_SIZE`. -/
def ceilBlocks (n : Nat) : Nat := ⌈(n : ℚ) / (BLOCK_SIZE : ℚ)⌉₊

/-- The entries of the directory, in listing order. -/
def entries (s : VirtualFileSystem) : List FileEntry := s.directory.map DirNode.entry

/-- The state `modifyFile` leaves when the allocation for the new content fails
for lack of blocks, for the entry `f` being modified: the failed allocation has
moved every free index to the LIFO pool, and the restore branch allocates
blocks for the old content and writes it there. -/
def restoreResult (s : VirtualFileSystem) (f : FileEntry) : VirtualFileSystem :=
  let s2 : VirtualFileSystem :=
    { s with
      freeBlocks := []
      freedBlocks := (VirtualFileSystem.pushAll s.freedBlocks f.blocks ++ s.freeBlocks).reverse }
  let oldData := s.readFromDisk f
  (s2.allocateBlocks oldData.length).2.writeToDisk (s2.allocateBlocks oldData.length).1 oldData

/-- Every block index below `blockCount` is in exactly one place: once in one
of the two pools, or once in the block list of one live entry. -/
def Conserved (s : VirtualFileSystem) : Prop :=
  ∀ b, b < blockCount →
    (s.freeBlocks ++ s.freedBlocks ++ (entries s).flatMap FileEntry.blocks).count b = 1

/-- The number of block indices held by the live entries. -/
def ownedCount (s : VirtualFileSystem) : Nat :=
  ((entries s).map (fun f => f.blocks.length)).sum

/-- A 1025-byte content: 1024 bytes `1`, then one byte `2`. -/
def twoBlockContent : List Byte := List.replicate 1024 1 ++ [2]

/-- A content one byte longer than the whole data zone. -/
def oversizedContent : List Byte := List.replicate (DATA_SPACE_SIZE + 1) 0

/-- The node address that `directoryIndex` holds for `name`, if it holds one. -/
def indexFind (idx : List (String × Nat)) (name : String) : Option Nat :=
  (idx.find? (fun kv => kv.1 == name)).map Prod.snd

/-- The pairs (name, node address) of the directory nodes, in listing order. -/
def namedNodes (s : VirtualFileSystem) : List (String × Nat) :=
  s.directory.map (fun n => (n.entry.name, n.addr))

/-- The names of the directory entries, in listing order. -/
def names (s : VirtualFileSystem) : List String :=
  (entries s).map FileEntry.name

/-- The directory and its name index agree: names and node addresses are
pairwise distinct, every address is below `nextAddr`, no key occurs twice in
the index, and the index holds exactly the pairs (name, address) of the
directory nodes. -/
def IndexConsistent (s : VirtualFileSystem) : Prop :=
  ((namedNodes s).map Prod.fst).Nodup ∧
  ((namedNodes s).map Prod.snd).Nodup ∧
  (∀ x ∈ namedNodes s, x.2 < s.nextAddr) ∧
  (s.directoryIndex.map Prod.fst).Nodup ∧
  (∀ x, x ∈ s.directoryIndex ↔ x ∈ namedNodes s)

/-- A content that needs 6554 blocks: 6554 * 1024 bytes `0`. -/
def thresholdContent : List Byte := List.replicate (6554 * BLOCK_SIZE) 0

/-- Every block index the state holds: the FIFO pool, the LIFO pool, and the
block lists of the live entries in listing order. -/
def allIndices (s : VirtualFileSystem) : List Nat :=
  s.freeBlocks ++ s.freedBlocks ++ (entries s).flatMap FileEntry.blocks

/-- A byte offset lies in the range of block `b`. -/
def inBlock (b i : Nat) : Prop :=
  VirtualFileSystem.blockOffset b ≤ i ∧ i < VirtualFileSystem.blockOffset b + BLOCK_SIZE

/-- The states reached from the freshly constructed system by create and
delete requests only. -/
inductive ReachableWithoutModify : VirtualFileSystem → Prop where
  | init : ReachableWithoutModify VirtualFileSystem.init
  | createFile (s : VirtualFileSystem) (name : String) (data : List Byte) :
      ReachableWithoutModify s → ReachableWithoutModify (s.createFile name data).2
  | copyFromWindows (s : VirtualFileSystem) (path : String) (file : Option (List Byte)) :
      ReachableWithoutModify s → ReachableWithoutModify (s.copyFromWindows path file).2
  | deleteFile (s : VirtualFileSystem) (p : Nat) :
      ReachableWithoutModify s → ReachableWithoutModify (s.deleteFile p).2

/-! ## Auxiliary facts -/

open VirtualFileSystem

theorem blocksFor_eq_ceilBlocks (n : Nat) : blocksFor n = ceilBlocks n := by
  unfold blocksFor ceilBlocks BLOCK_SIZE
  symm
  rcases Nat.eq_zero_or_pos n with h0 | hpos
  · subst h0; simp
  · have hk : (n + 1024 - 1) / 1024 ≠ 0 := by omega
    rw [Nat.ceil_eq_iff hk]
    have h1 : ((n + 1024 - 1) / 1024 - 1) * 1024 < n := by omega
    have h2 : n ≤ ((n + 1024 - 1) / 1024) * 1024 := by omega
    have h1q : ((((n + 1024 - 1) / 1024 - 1) * 1024 : ℕ) : ℚ) < (n : ℚ) := by exact_mod_cast h1
    have h2q : (n : ℚ) ≤ ((((n + 1024 - 1) / 1024) * 1024 : ℕ) : ℚ) := by exact_mod_cast h2
    push_cast at h1q h2q ⊢
    constructor
    · rw [lt_div_iff₀ (by norm_num)]; linarith
    · rw [div_le_iff₀ (by norm_num)]; linarith

theorem drain_eq (needed : Nat) (pool alloc : List Nat) :
    drain needed pool alloc
      = (pool.drop (needed - alloc.length), alloc ++ pool.take (needed - alloc.length)) := by
  induction pool generalizing alloc with
  | nil => simp [drain]
  | cons b rest ih =>
    unfold drain
    split
    · rename_i h
      rw [ih]
      have e : needed - alloc.length = (needed - (alloc ++ [b]).length) + 1 := by
        simp; omega
      rw [e]
      simp
    · rename_i h
      have e : needed - alloc.length = 0 := by omega
      simp [e]

theorem pushAll_eq (st blocks : List Nat) : pushAll st blocks = blocks.reverse ++ st := by
  unfold pushAll
  induction blocks generalizing st with
  | nil => rfl
  | cons b rest ih => simp [ih]

theorem allocateBlocks_of_enough (s : VirtualFileSystem) (n : Nat)
    (h : blocksFor n ≤ s.freedBlocks.length + s.freeBlocks.length) :
    s.allocateBlocks n
      = (s.freedBlocks.take (blocksFor n)
            ++ s.freeBlocks.take (blocksFor n - s.freedBlocks.length),
          { s with
            freeBlocks := s.freeBlocks.drop (blocksFor n - s.freedBlocks.length)
            freedBlocks := s.freedBlocks.drop (blocksFor n) }) := by
  unfold allocateBlocks
  simp only [drain_eq]
  have hk : (n + BLOCK_SIZE - 1) / BLOCK_SIZE = blocksFor n := rfl
  simp only [hk, List.length_nil, Nat.sub_zero, List.nil_append, List.length_take]
  have e : blocksFor n - min (blocksFor n) s.freedBlocks.length
      = blocksFor n - s.freedBlocks.length := by omega
  rw [e]
  have hlen : ¬ ((List.take (blocksFor n) s.freedBlocks
      ++ List.take (blocksFor n - s.freedBlocks.length) s.freeBlocks).length < blocksFor n) := by
    simp only [List.length_append, List.length_take]
    omega
  rw [if_neg hlen]

theorem allocateBlocks_of_short (s : VirtualFileSystem) (n : Nat)
    (h : s.freedBlocks.length + s.freeBlocks.length < blocksFor n) :
    s.allocateBlocks n
      = ([], { s with
                freeBlocks := []
                freedBlocks := (s.freedBlocks ++ s.freeBlocks).reverse }) := by
  unfold allocateBlocks
  simp only [drain_eq]
  have hk : (n + BLOCK_SIZE - 1) / BLOCK_SIZE = blocksFor n := rfl
  simp only [hk, List.length_nil, Nat.sub_zero, List.nil_append, List.length_take]
  have e : blocksFor n - min (blocksFor n) s.freedBlocks.length
      = blocksFor n - s.freedBlocks.length := by omega
  rw [e]
  have hlen : (List.take (blocksFor n) s.freedBlocks
      ++ List.take (blocksFor n - s.freedBlocks.length) s.freeBlocks).length < blocksFor n := by
    simp only [List.length_append, List.length_take]
    omega
  rw [if_pos hlen, pushAll_eq]
  have t1 : List.take (blocksFor n) s.freedBlocks = s.freedBlocks :=
    List.take_of_length_le (by omega)
  have t2 : List.take (blocksFor n - s.freedBlocks.length) s.freeBlocks = s.freeBlocks :=
    List.take_of_length_le (by omega)
  have d1 : List.drop (blocksFor n) s.freedBlocks = [] :=
    List.drop_of_length_le (by omega)
  have d2 : List.drop (blocksFor n - s.freedBlocks.length) s.freeBlocks = [] :=
    List.drop_of_length_le (by omega)
  rw [t1, t2, d1, d2, List.append_nil]

theorem init_freeBlocks : init.freeBlocks = List.range' 0 blockCount := by simp only [init]
theorem init_freedBlocks : init.freedBlocks = [] := rfl
theorem blockCount_eq : blockCount = 8192 := by decide
theorem allocateBlocks_frame (s : VirtualFileSystem) (n : Nat) :
    (s.allocateBlocks n).2.disk = s.disk ∧
    (s.allocateBlocks n).2.directory = s.directory ∧
    (s.allocateBlocks n).2.directoryIndex = s.directoryIndex ∧
    (s.allocateBlocks n).2.nextAddr = s.nextAddr := by
  simp only [allocateBlocks]
  split <;> exact ⟨rfl, rfl, rfl, rfl⟩

theorem store_of_alloc (s : VirtualFileSystem) (name : String) (data : List Byte)
    (ok : Message) (hnew : indexCount s name = false)
    (hne : (s.allocateBlocks data.length).1 ≠ []) :
    s.store name data ok
      = (ok,
          { disk := writeLoop data (s.allocateBlocks data.length).1 0 s.disk
            freeBlocks := (s.allocateBlocks data.length).2.freeBlocks
            freedBlocks := (s.allocateBlocks data.length).2.freedBlocks
            directory := s.directory
              ++ [⟨s.nextAddr, ⟨name, (s.allocateBlocks data.length).1, data.length⟩⟩]
            directoryIndex := indexSet s.directoryIndex name s.nextAddr
            nextAddr := s.nextAddr + 1 }) := by
  obtain ⟨h1, h2, h3, h4⟩ := allocateBlocks_frame s data.length
  have hemp : (s.allocateBlocks data.length).1.isEmpty = false := by
    cases hr : (s.allocateBlocks data.length).1 with
    | nil => exact absurd hr hne
    | cons a l => rfl
  unfold store
  simp only [hnew, hemp, writeToDisk, h1, h2, h3, h4]
  simp

theorem deleteFile_of_valid (s : VirtualFileSystem) (p : Nat) (j : DirNode)
    (hj : s.directory.get? (indexOfPosition p) = some j) :
    s.deleteFile p
      = (Message.deleted,
          { s with
            freedBlocks := pushAll s.freedBlocks j.entry.blocks
            directoryIndex := indexErase s.directoryIndex j.entry.name
            directory := s.directory.eraseIdx (indexOfPosition p) }) := by
  have hlt : indexOfPosition p < s.directory.length := by
    rcases Nat.lt_or_ge (indexOfPosition p) s.directory.length with h | h
    · exact h
    · rw [List.get?_eq_none.mpr h] at hj; cases hj
  have hne : s.directory.isEmpty = false := by
    cases hd : s.directory with
    | nil => rw [hd] at hlt; cases hlt
    | cons a l => rfl
  unfold deleteFile
  simp only [hne, hj, freeAllocatedBlocks, FileEntry.getBlocks, FileEntry.getName]
  have : ¬ (indexOfPosition p ≥ s.directory.length) := by omega
  simp [this]

theorem usagePercent_gt_iff (s : VirtualFileSystem) :
    usagePercent s > 0.8 ↔ 4 * DATA_SPACE_SIZE < 5 * usedSpace s := by
  unfold usagePercent DATA_SPACE_SIZE
  have hq : (4 * (8 * 1024 * 1024) < 5 * usedSpace s) ↔
      ((4 * (8 * 1024 * 1024) : ℚ) < 5 * (usedSpace s : ℚ)) := by
    constructor
    · intro h; exact_mod_cast h
    · intro h; exact_mod_cast h
  rw [hq, gt_iff_lt, lt_div_iff₀ (by norm_num)]
  push_cast
  constructor
  · intro h; linarith
  · intro h; linarith

theorem diskFull_iff (s : VirtualFileSystem) :
    diskFull s ↔
      (s.directory.length ≥ MAX_DIRECTORY_ENTRIES ∨ 4 * DATA_SPACE_SIZE < 5 * usedSpace s) := by
  unfold diskFull
  rw [usagePercent_gt_iff]

/-! ## The allocator -/

theorem split_pools_nodup {A B : List Nat} (k j : Nat) (h : (A ++ B).Nodup) (b : Nat)
    (hb : b ∈ A.take k ++ B.take j) : b ∉ B.drop j ∧ b ∉ A.drop k := by
  have hA : A.take k ++ A.drop k = A := List.take_append_drop k A
  have hB : B.take j ++ B.drop j = B := List.take_append_drop j B
  rw [← hA, ← hB] at h
  simp only [List.nodup_append, List.mem_append, List.disjoint_left] at h hb
  obtain ⟨⟨_, _, h1⟩, ⟨_, _, h2⟩, h3⟩ := h
  rcases hb with hb | hb
  · exact ⟨fun hc => h3 (Or.inl hb) (Or.inr hc), fun hc => h1 hb hc⟩
  · exact ⟨fun hc => h2 hb hc, fun hc => h3 (Or.inr hc) (Or.inl hb)⟩

/-- C5 (allocation sizing): from pools holding pairwise distinct indices, a
non-empty result of `allocateBlocks n` (with `1 ≤ n ≤ DATA_SPACE_SIZE`) has
exactly `ceil(n / BLOCK_SIZE)` indices, pairwise distinct, each taken from
`freeBlocks` or `freedBlocks` and in neither pool afterwards, and the number of
free indices drops by exactly `ceil(n / BLOCK_SIZE)`; on the fresh system
`allocateBlocks 2500` returns the three indices 0, 1, 2. -/
theorem allocateBlocks_sizing :
    (∀ (s : VirtualFileSystem) (n : Nat),
      (s.freedBlocks ++ s.freeBlocks).Nodup → 1 ≤ n → n ≤ DATA_SPACE_SIZE →
      (s.allocateBlocks n).1 ≠ [] →
        (s.allocateBlocks n).1.length = ceilBlocks n ∧
        (s.allocateBlocks n).1.Nodup ∧
        (∀ b ∈ (s.allocateBlocks n).1, b ∈ s.freeBlocks ∨ b ∈ s.freedBlocks) ∧
        (∀ b ∈ (s.allocateBlocks n).1,
          b ∉ (s.allocateBlocks n).2.freeBlocks ∧ b ∉ (s.allocateBlocks n).2.freedBlocks) ∧
        (s.allocateBlocks n).2.freeBlocks.length + (s.allocateBlocks n).2.freedBlocks.length
            + ceilBlocks n
          = s.freeBlocks.length + s.freedBlocks.length) ∧
    (init.allocateBlocks 2500).1 = [0, 1, 2] := by
  refine ⟨?_, by decide!⟩
  intro s n hnd _ _ hne
  rw [← blocksFor_eq_ceilBlocks]
  by_cases hshort : s.freedBlocks.length + s.freeBlocks.length < blocksFor n
  · rw [allocateBlocks_of_short s n hshort] at hne
    exact absurd rfl hne
  · have hen : blocksFor n ≤ s.freedBlocks.length + s.freeBlocks.length := by omega
    rw [allocateBlocks_of_enough s n hen]
    refine ⟨?_, ?_, ?_, ?_, ?_⟩
    · simp only [List.length_append, List.length_take]; omega
    · exact hnd.sublist
        (List.Sublist.append (List.take_sublist _ _) (List.take_sublist _ _))
    · intro b hb
      rcases List.mem_append.mp hb with hb | hb
      · exact Or.inr (List.mem_of_mem_take hb)
      · exact Or.inl (List.mem_of_mem_take hb)
    · intro b hb
      exact split_pools_nodup _ _ hnd b hb
    · simp only [List.length_drop]; omega

/-- Witness for C5 on the fresh system with 2500 bytes. -/
theorem allocateBlocks_sizing_witness :
    (init.freedBlocks ++ init.freeBlocks).Nodup ∧ 1 ≤ 2500 ∧ 2500 ≤ DATA_SPACE_SIZE ∧
    (init.allocateBlocks 2500).1 ≠ [] ∧
    (init.allocateBlocks 2500).1.length = ceilBlocks 2500 ∧
    (init.allocateBlocks 2500).2.freeBlocks.length
        + (init.allocateBlocks 2500).2.freedBlocks.length + ceilBlocks 2500
      = init.freeBlocks.length + init.freedBlocks.length :=
  have hnd : (init.freedBlocks ++ init.freeBlocks).Nodup := by
    rw [init_freeBlocks, init_freedBlocks, List.nil_append]; exact List.nodup_range' 0 blockCount
  have hne : (init.allocateBlocks 2500).1 ≠ [] := by
    rw [allocateBlocks_sizing.2]; exact List.cons_ne_nil _ _
  have hle : 2500 ≤ DATA_SPACE_SIZE := by decide
  ⟨hnd, by decide, hle, hne,
    (allocateBlocks_sizing.1 init 2500 hnd (by decide) hle hne).1,
    (allocateBlocks_sizing.1 init 2500 hnd (by decide) hle hne).2.2.2.2⟩

/-- C6 (reuse priority): when enough indices are free, `allocateBlocks n`
returns the first `min needed |freedBlocks|` indices of the LIFO pool, top
first, followed by the first `needed - min needed |freedBlocks|` indices of the
FIFO pool, front first, and the FIFO pool is untouched whenever an index is
left in the LIFO pool.  After releasing `[5, 9]` a one-block allocation returns
a block among 5 and 9; after creating a 2500-byte file on the fresh system
(blocks 0, 1, 2) and deleting it, creating a 1024-byte file allocates exactly
one block, which is among 0, 1, 2. -/
theorem allocateBlocks_reuse_priority :
    (∀ (s : VirtualFileSystem) (n : Nat),
      ceilBlocks n ≤ s.freedBlocks.length + s.freeBlocks.length →
        (s.allocateBlocks n).1
          = s.freedBlocks.take (min (ceilBlocks n) s.freedBlocks.length)
            ++ s.freeBlocks.take (ceilBlocks n - min (ceilBlocks n) s.freedBlocks.length) ∧
        ((s.allocateBlocks n).2.freedBlocks ≠ [] →
          (s.allocateBlocks n).2.freeBlocks = s.freeBlocks ∧
          (s.allocateBlocks n).1 = s.freedBlocks.take (ceilBlocks n))) ∧
    (∀ (s : VirtualFileSystem) (n : Nat), 1 ≤ n → n ≤ BLOCK_SIZE →
      ∃ b, ((s.freeAllocatedBlocks [5, 9]).allocateBlocks n).1 = [b] ∧ (b = 5 ∨ b = 9)) ∧
    (∀ (name name2 : String) (d d2 : List Byte), d.length = 2500 → d2.length = 1024 →
      entries (init.createFile name d).2 = [⟨name, [0, 1, 2], 2500⟩] ∧
      ∃ b, entries (((init.createFile name d).2.deleteFile 1).2.createFile name2 d2).2
            = [⟨name2, [b], 1024⟩] ∧ (b = 0 ∨ b = 1 ∨ b = 2)) := by
  refine ⟨?_, ?_, ?_⟩
  · intro s n hen
    rw [← blocksFor_eq_ceilBlocks] at hen ⊢
    rw [allocateBlocks_of_enough s n hen]
    refine ⟨?_, ?_⟩
    · have e : blocksFor n - min (blocksFor n) s.freedBlocks.length
          = blocksFor n - s.freedBlocks.length := by omega
      rw [e, List.take_eq_take.mpr]
      simp
    · intro hrem
      have hlt : blocksFor n < s.freedBlocks.length := by
        by_contra hc
        exact hrem (List.drop_of_length_le (by omega))
      have e : blocksFor n - s.freedBlocks.length = 0 := by omega
      simp [e]
  · intro s n h1 h2
    refine ⟨9, ?_, Or.inr rfl⟩
    have hk : blocksFor n = 1 := by unfold blocksFor BLOCK_SIZE at *; omega
    have hen : blocksFor n ≤ (s.freeAllocatedBlocks [5, 9]).freedBlocks.length
        + (s.freeAllocatedBlocks [5, 9]).freeBlocks.length := by
      rw [hk]; simp [freeAllocatedBlocks, pushAll]; omega
    rw [allocateBlocks_of_enough _ n hen, hk]
    simp [freeAllocatedBlocks, pushAll]
  · intro name name2 d d2 hd hd2
    have hclosed : (init.allocateBlocks 2500).1 = [0, 1, 2] ∧ ¬ diskFull init ∧
        pushAll (init.allocateBlocks 2500).2.freedBlocks [0, 1, 2] = [2, 1, 0] ∧
        (init.allocateBlocks 2500).2.freeBlocks.length = 8189 := by decide!
    have hA1 := hclosed.1
    have hfull0 := hclosed.2.1
    have hs1 : (init.createFile name d).2
        = { disk := writeLoop d [0, 1, 2] 0 init.disk
            freeBlocks := (init.allocateBlocks 2500).2.freeBlocks
            freedBlocks := (init.allocateBlocks 2500).2.freedBlocks
            directory := [⟨0, ⟨name, [0, 1, 2], 2500⟩⟩]
            directoryIndex := indexSet [] name 0
            nextAddr := 1 } := by
      unfold createFile
      rw [if_neg hfull0, store_of_alloc init name d _ rfl (by rw [hd, hA1]; simp), hd, hA1]
      rfl
    have hidx : indexOfPosition 1 = 0 := by decide
    rw [hs1]
    refine ⟨rfl, 2, ?_, Or.inr (Or.inr rfl)⟩
    rw [deleteFile_of_valid _ 1 ⟨0, ⟨name, [0, 1, 2], 2500⟩⟩ (by rw [hidx]; rfl)]
    simp only [hidx, List.eraseIdx_cons_zero, indexSet, indexErase, List.filter_nil,
      List.filter_cons, bne_self_eq_false, Bool.false_eq_true, if_false]
    have hfr := hclosed.2.2.1
    have hlen := hclosed.2.2.2
    rw [hfr]
    obtain ⟨s2, hs2⟩ : ∃ s2 : VirtualFileSystem, s2 =
        { disk := writeLoop d [0, 1, 2] 0 init.disk
          freeBlocks := (init.allocateBlocks 2500).2.freeBlocks
          freedBlocks := [2, 1, 0]
          directory := []
          directoryIndex := []
          nextAddr := 1 } := ⟨_, rfl⟩
    rw [← hs2]
    have f1 : s2.freeBlocks.length = 8189 := by simp only [hs2, hlen]
    have f2 : s2.freedBlocks = [2, 1, 0] := by rw [hs2]
    have f3 : s2.directory = [] := by rw [hs2]
    have f4 : s2.directoryIndex = [] := by rw [hs2]
    have hfull2 : ¬ diskFull s2 := by
      rw [diskFull_iff]
      simp only [usedSpace, f1, f2, f3, List.length_nil, List.length_cons]
      decide
    have hnew : indexCount s2 name2 = false := by simp [indexCount, f4]
    have hen : blocksFor d2.length ≤ s2.freedBlocks.length + s2.freeBlocks.length := by
      rw [hd2, f1, f2]; decide
    have hB : (s2.allocateBlocks d2.length).1 = [2] := by
      rw [allocateBlocks_of_enough s2 _ hen, hd2, f2]
      rfl
    unfold createFile
    rw [if_neg hfull2, store_of_alloc s2 name2 d2 _ hnew (by rw [hB]; simp), hB, hd2]
    simp [entries, f3]

/-- Witness for C6: after a 2500-byte file was created and deleted, a request
for five blocks takes 2, 1, 0 from the LIFO pool and then 3, 4 from the FIFO
pool; and the two scenarios of the claim at concrete contents. -/
theorem allocateBlocks_reuse_priority_witness :
    (ceilBlocks 5000
        ≤ (run init [Op.createFile "a" (List.replicate 2500 0), Op.deleteFile 1]).freedBlocks.length
          + (run init [Op.createFile "a" (List.replicate 2500 0), Op.deleteFile 1]).freeBlocks.length) ∧
    ((run init [Op.createFile "a" (List.replicate 2500 0), Op.deleteFile 1]).allocateBlocks 5000).1
      = [2, 1, 0, 3, 4] ∧
    (∃ b, ((init.freeAllocatedBlocks [5, 9]).allocateBlocks 1).1 = [b] ∧ (b = 5 ∨ b = 9)) ∧
    (∃ b, entries (((init.createFile "a" (List.replicate 2500 0)).2.deleteFile 1).2.createFile
            "b" (List.replicate 1024 0)).2 = [⟨"b", [b], 1024⟩] ∧ (b = 0 ∨ b = 1 ∨ b = 2)) :=
  have h : ceilBlocks 5000
      ≤ (run init [Op.createFile "a" (List.replicate 2500 0), Op.deleteFile 1]).freedBlocks.length
        + (run init [Op.createFile "a" (List.replicate 2500 0), Op.deleteFile 1]).freeBlocks.length := by
    rw [← blocksFor_eq_ceilBlocks]; decide!
  ⟨h,
    (allocateBlocks_reuse_priority.1 _ 5000 h).1.trans (by
      rw [← blocksFor_eq_ceilBlocks]; decide!),
    allocateBlocks_reuse_priority.2.1 init 1 (by decide) (by decide),
    (allocateBlocks_reuse_priority.2.2 "a" "b" (List.replicate 2500 0) (List.replicate 1024 0)
      (List.length_replicate _ _) (List.length_replicate _ _)).2⟩

/-- Where the sum `bytes + BLOCK_SIZE - 1` does not wrap, the function on
`size_t` is the function on lengths. -/
theorem allocateBlocksSizeT_eq (s : VirtualFileSystem) (n : Nat)
    (hn : n + BLOCK_SIZE - 1 < SIZE_MOD) : s.allocateBlocksSizeT n = s.allocateBlocks n := by
  unfold allocateBlocksSizeT allocateBlocks
  rw [Nat.mod_eq_of_lt hn]

/-- Where the wrapped sum is below `BLOCK_SIZE`, no block is asked for: the
empty vector is returned and the state stays as it was. -/
theorem allocateBlocksSizeT_of_wrap (s : VirtualFileSystem) (n : Nat)
    (h : (n + BLOCK_SIZE - 1) % SIZE_MOD < BLOCK_SIZE) : s.allocateBlocksSizeT n = ([], s) := by
  unfold allocateBlocksSizeT
  rw [Nat.div_eq_of_lt h]
  simp only [drain_eq, List.length_nil, Nat.sub_self, List.drop_zero, List.take_zero,
    List.append_nil, Nat.lt_irrefl, if_false]

/-- C7 as amended (failed allocation rollback): for a byte count `n` whose
rounding sum `n + BLOCK_SIZE - 1` does not wrap in `size_t` (that is,
`n ≤ 2 ^ 64 - 1024`), when fewer indices are free than `ceil(n / BLOCK_SIZE)`,
`allocateBlocks n` returns the empty vector, leaves the FIFO pool empty, and
leaves in the LIFO pool exactly the indices that were free before (the
collected indices, LIFO pool first, pushed one by one, so in reverse order of
collection): same indices, same count. -/
theorem allocateBlocks_failed_rollback (s : VirtualFileSystem) (n : Nat)
    (hn : n + BLOCK_SIZE - 1 < SIZE_MOD)
    (h : ceilBlocks n > s.freedBlocks.length + s.freeBlocks.length) :
    (s.allocateBlocksSizeT n).1 = [] ∧
    (s.allocateBlocksSizeT n).2.freeBlocks = [] ∧
    (s.allocateBlocksSizeT n).2.freedBlocks = (s.freedBlocks ++ s.freeBlocks).reverse ∧
    List.Perm (s.allocateBlocksSizeT n).2.freedBlocks (s.freedBlocks ++ s.freeBlocks) ∧
    (s.allocateBlocksSizeT n).2.freedBlocks.length
      = s.freedBlocks.length + s.freeBlocks.length ∧
    s.allocateBlocksSizeT n = s.allocateBlocks n := by
  rw [← blocksFor_eq_ceilBlocks] at h
  rw [allocateBlocksSizeT_eq s n hn, allocateBlocks_of_short s n h]
  refine ⟨rfl, rfl, rfl, List.reverse_perm _, ?_, rfl⟩
  simp only [List.length_reverse, List.length_append]

/-- Witness for C7: on a state with LIFO pool `[7, 4]` and FIFO pool `[9]`, a
request for 4 blocks fails and leaves the LIFO pool `[9, 4, 7]`. -/
theorem allocateBlocks_failed_rollback_witness :
    4000 + BLOCK_SIZE - 1 < SIZE_MOD ∧
    ceilBlocks 4000 > ({ init with freedBlocks := [7, 4], freeBlocks := [9] } :
        VirtualFileSystem).freedBlocks.length
      + ({ init with freedBlocks := [7, 4], freeBlocks := [9] } :
        VirtualFileSystem).freeBlocks.length ∧
    (({ init with freedBlocks := [7, 4], freeBlocks := [9] } :
        VirtualFileSystem).allocateBlocksSizeT 4000).1 = [] ∧
    (({ init with freedBlocks := [7, 4], freeBlocks := [9] } :
        VirtualFileSystem).allocateBlocksSizeT 4000).2.freeBlocks = [] ∧
    (({ init with freedBlocks := [7, 4], freeBlocks := [9] } :
        VirtualFileSystem).allocateBlocksSizeT 4000).2.freedBlocks = [9, 4, 7] :=
  have hn : 4000 + BLOCK_SIZE - 1 < SIZE_MOD := by decide
  have h : ceilBlocks 4000 > ({ init with freedBlocks := [7, 4], freeBlocks := [9] } :
        VirtualFileSystem).freedBlocks.length
      + ({ init with freedBlocks := [7, 4], freeBlocks := [9] } :
        VirtualFileSystem).freeBlocks.length := by
    rw [← blocksFor_eq_ceilBlocks]; decide
  ⟨hn, h, (allocateBlocks_failed_rollback _ 4000 hn h).1,
    (allocateBlocks_failed_rollback _ 4000 hn h).2.1,
    (allocateBlocks_failed_rollback _ 4000 hn h).2.2.1⟩

/-- C7 as stated fails where the rounding sum wraps.  On the fresh system a
request for `2 ^ 64 - 1` bytes needs `2 ^ 54` blocks where 8192 are free, yet
`blocksNeeded` is computed as `1022 / 1024 = 0`: the empty vector is returned,
the FIFO pool still holds its 8192 indices and nothing is pushed onto the
LIFO pool. -/
theorem allocateBlocks_no_rollback_when_sum_wraps :
    18446744073709551615 < SIZE_MOD ∧
    ceilBlocks 18446744073709551615 > init.freedBlocks.length + init.freeBlocks.length ∧
    (init.allocateBlocksSizeT 18446744073709551615).1 = [] ∧
    (init.allocateBlocksSizeT 18446744073709551615).2.freeBlocks
      = List.range' 0 blockCount ∧
    (init.allocateBlocksSizeT 18446744073709551615).2.freeBlocks ≠ [] ∧
    (init.allocateBlocksSizeT 18446744073709551615).2.freedBlocks = [] ∧
    (init.allocateBlocksSizeT 18446744073709551615).2.freedBlocks.length
      ≠ init.freedBlocks.length + init.freeBlocks.length := by
  have hw : (18446744073709551615 + BLOCK_SIZE - 1) % SIZE_MOD < BLOCK_SIZE := by decide
  rw [allocateBlocksSizeT_of_wrap init _ hw, ← blocksFor_eq_ceilBlocks, init_freeBlocks,
    init_freedBlocks, List.length_range', blockCount_eq]
  refine ⟨by decide, by decide, rfl, rfl, ?_, rfl, by decide⟩
  intro h
  have h2 := congrArg List.length h
  rw [List.length_range'] at h2
  exact absurd h2 (by decide)

theorem map_getD_range (src : List Byte) (w : Nat) (hw : w ≤ src.length) :
    (List.range w).map (fun k => src.getD k 0) = src.take w := by
  apply List.ext_getElem
  · simp [hw]
  · intro i h1 h2
    simp only [List.length_map, List.length_range] at h1
    simp [List.getElem_take, List.getD_eq_getElem?_getD, List.getElem?_eq_getElem (by omega : i < src.length)]

theorem diskBytes_memcpy (disk : Nat → Byte) (offset : Nat) (src : List Byte) (w : Nat)
    (hw : w ≤ src.length) :
    diskBytes (memcpy disk offset src w) offset w = src.take w := by
  unfold diskBytes
  rw [← map_getD_range src w hw]
  apply List.map_congr_left
  intro k hk
  have hk2 : k < w := List.mem_range.mp hk
  simp [memcpy, hk2]

theorem diskBytes_congr (d1 d2 : Nat → Byte) (offset w : Nat)
    (h : ∀ i, offset ≤ i → i < offset + w → d1 i = d2 i) :
    diskBytes d1 offset w = diskBytes d2 offset w := by
  unfold diskBytes
  apply List.map_congr_left
  intro k hk
  have hk2 : k < w := List.mem_range.mp hk
  exact h (offset + k) (by omega) (by omega)

/-- A write leaves every byte outside the blocks it is given as it was. -/
theorem writeLoop_frame (data : List Byte) (blocks : List Nat) (pos : Nat) (disk : Nat → Byte)
    (i : Nat) (h : ∀ c ∈ blocks, ¬ (blockOffset c ≤ i ∧ i < blockOffset c + BLOCK_SIZE)) :
    writeLoop data blocks pos disk i = disk i := by
  induction blocks generalizing pos disk with
  | nil => rfl
  | cons c rest ih =>
    simp only [writeLoop]
    rw [ih _ _ (fun c2 hc2 => h c2 (List.mem_cons_of_mem _ hc2))]
    have hc := h c (List.mem_cons_self _ _)
    unfold memcpy
    have : ¬ (blockOffset c ≤ i ∧ i < blockOffset c + min BLOCK_SIZE (data.length - pos)) := by
      intro hh
      exact hc ⟨hh.1, lt_of_lt_of_le hh.2 (by have := Nat.min_le_left BLOCK_SIZE (data.length - pos); omega)⟩
    rw [if_neg this]

theorem blockOffset_disjoint (b c : Nat) (hne : c ≠ b) (i : Nat)
    (hi1 : blockOffset b ≤ i) (hi2 : i < blockOffset b + BLOCK_SIZE) :
    ¬ (blockOffset c ≤ i ∧ i < blockOffset c + BLOCK_SIZE) := by
  unfold blockOffset BLOCK_SIZE at *
  intro hh
  rcases Nat.lt_or_gt_of_ne hne with h | h <;> omega

/-- Reading back, block by block, what `writeLoop` wrote into pairwise distinct
blocks returns the bytes written from position `pos` on. -/
theorem readLoop_writeLoop (data : List Byte) (blocks : List Nat) (pos : Nat)
    (disk : Nat → Byte) (out : List Byte) (hnd : blocks.Nodup)
    (hfit : data.length - pos ≤ blocks.length * BLOCK_SIZE) :
    readLoop (writeLoop data blocks pos disk) blocks (data.length - pos) out
      = out ++ data.drop pos := by
  induction blocks generalizing pos disk out with
  | nil =>
    simp only [List.length_nil, Nat.zero_mul, Nat.le_zero] at hfit
    have : data.drop pos = [] := List.drop_of_length_le (by omega)
    simp [readLoop, this]
  | cons b rest ih =>
    obtain ⟨hb, hrest⟩ := List.nodup_cons.mp hnd
    simp only [writeLoop, readLoop]
    have hw : min BLOCK_SIZE (data.length - pos) ≤ (data.drop pos).length := by
      rw [List.length_drop]; exact Nat.min_le_right _ _
    have hread : diskBytes
        (writeLoop data rest (pos + min BLOCK_SIZE (data.length - pos))
          (memcpy disk (blockOffset b) (data.drop pos) (min BLOCK_SIZE (data.length - pos))))
        (blockOffset b) (min BLOCK_SIZE (data.length - pos))
        = (data.drop pos).take (min BLOCK_SIZE (data.length - pos)) := by
      rw [← diskBytes_memcpy disk (blockOffset b) (data.drop pos) _ hw]
      apply diskBytes_congr
      intro i hi1 hi2
      apply writeLoop_frame
      intro c hc
      have hne : c ≠ b := fun e => hb (e ▸ hc)
      exact blockOffset_disjoint b c hne i hi1
        (lt_of_lt_of_le hi2 (by have := Nat.min_le_left BLOCK_SIZE (data.length - pos); omega))
    rw [hread]
    have hrem : data.length - pos - min BLOCK_SIZE (data.length - pos)
        = data.length - (pos + min BLOCK_SIZE (data.length - pos)) := by omega
    rw [hrem, ih _ _ _ hrest (by simp only [List.length_cons] at hfit; unfold BLOCK_SIZE at *; omega)]
    rw [List.append_assoc]
    congr 1
    rw [← List.drop_drop, List.take_append_drop]

/-! ## The storage region -/

/-- C1 (round trip): from pools holding pairwise distinct indices below
`blockCount`, at least `ceil(len b / BLOCK_SIZE)` of them, allocating blocks
for `len b` bytes, writing `b` into them and reading a record with those
blocks and size `len b` returns exactly `b` (so the same length, without
block padding); every block written lies inside the disk buffer. -/
theorem write_read_round_trip (s : VirtualFileSystem) (b : List Byte) (name : String)
    (_hlen : b.length ≤ DATA_SPACE_SIZE)
    (hnd : (s.freedBlocks ++ s.freeBlocks).Nodup)
    (hlt : ∀ x ∈ s.freedBlocks ++ s.freeBlocks, x < blockCount)
    (hen : ceilBlocks b.length ≤ s.freedBlocks.length + s.freeBlocks.length) :
    readFromDisk (writeToDisk (s.allocateBlocks b.length).2 (s.allocateBlocks b.length).1 b)
        ⟨name, (s.allocateBlocks b.length).1, b.length⟩ = b ∧
    (∀ x ∈ (s.allocateBlocks b.length).1, blockOffset x + BLOCK_SIZE ≤ DISK_SIZE) := by
  rw [← blocksFor_eq_ceilBlocks] at hen
  rw [allocateBlocks_of_enough s _ hen]
  have hsub : List.Sublist
      (s.freedBlocks.take (blocksFor b.length)
        ++ s.freeBlocks.take (blocksFor b.length - s.freedBlocks.length))
      (s.freedBlocks ++ s.freeBlocks) :=
    List.Sublist.append (List.take_sublist _ _) (List.take_sublist _ _)
  constructor
  · unfold readFromDisk writeToDisk FileEntry.getBlocks FileEntry.getSize
    have h := readLoop_writeLoop b
      (s.freedBlocks.take (blocksFor b.length)
        ++ s.freeBlocks.take (blocksFor b.length - s.freedBlocks.length)) 0 s.disk []
      (hnd.sublist hsub)
      (by
        simp only [List.length_append, List.length_take, Nat.sub_zero]
        unfold blocksFor BLOCK_SIZE at *
        omega)
    simpa using h
  · intro x hx
    have hx2 := hlt x (hsub.subset hx)
    unfold blockOffset blockCount DATA_SPACE_SIZE DIRECTORY_SPACE_SIZE METADATA_SPACE_SIZE
      BLOCK_SIZE DISK_SIZE at *
    omega

/-- Witness for C1: a 1025-byte content on the fresh system. -/
theorem write_read_round_trip_witness :
    (List.replicate 1024 (1 : Byte) ++ [2]).length ≤ DATA_SPACE_SIZE ∧
    (init.freedBlocks ++ init.freeBlocks).Nodup ∧
    (∀ x ∈ init.freedBlocks ++ init.freeBlocks, x < blockCount) ∧
    ceilBlocks (List.replicate 1024 (1 : Byte) ++ [2]).length
      ≤ init.freedBlocks.length + init.freeBlocks.length ∧
    readFromDisk
        (writeToDisk (init.allocateBlocks (List.replicate 1024 (1 : Byte) ++ [2]).length).2
          (init.allocateBlocks (List.replicate 1024 (1 : Byte) ++ [2]).length).1
          (List.replicate 1024 (1 : Byte) ++ [2]))
        ⟨"a", (init.allocateBlocks (List.replicate 1024 (1 : Byte) ++ [2]).length).1,
          (List.replicate 1024 (1 : Byte) ++ [2]).length⟩
      = List.replicate 1024 (1 : Byte) ++ [2] :=
  have h1 : (List.replicate 1024 (1 : Byte) ++ [2]).length ≤ DATA_SPACE_SIZE := by
    simp only [List.length_append, List.length_replicate, List.length_cons, List.length_nil]
    decide
  have h2 : (init.freedBlocks ++ init.freeBlocks).Nodup := by
    rw [init_freeBlocks, init_freedBlocks, List.nil_append]; exact List.nodup_range' 0 blockCount
  have h3 : ∀ x ∈ init.freedBlocks ++ init.freeBlocks, x < blockCount := by
    rw [init_freeBlocks, init_freedBlocks, List.nil_append]
    intro x hx; have := List.mem_range'_1.mp hx; omega
  have h4 : ceilBlocks (List.replicate 1024 (1 : Byte) ++ [2]).length
      ≤ init.freedBlocks.length + init.freeBlocks.length := by
    rw [← blocksFor_eq_ceilBlocks, init_freeBlocks, init_freedBlocks]
    simp only [List.length_append, List.length_replicate, List.length_cons, List.length_nil,
      List.length_range']
    decide
  ⟨h1, h2, h3, h4, (write_read_round_trip init _ "a" h1 h2 h3 h4).1⟩

/-! ## The directory table -/

theorem store_directory_length (s : VirtualFileSystem) (name : String) (data : List Byte)
    (ok : Message) :
    (s.store name data ok).2.directory.length = s.directory.length ∨
    (s.store name data ok).2.directory.length = s.directory.length + 1 := by
  unfold store
  split
  · exact Or.inl rfl
  · simp only []
    split
    · left; rw [(allocateBlocks_frame s data.length).2.1]
    · right
      simp [writeToDisk, (allocateBlocks_frame s data.length).2.1]

theorem createFile_directory_length (s : VirtualFileSystem) (name : String) (data : List Byte)
    (h : s.directory.length ≤ MAX_DIRECTORY_ENTRIES) :
    (s.createFile name data).2.directory.length ≤ MAX_DIRECTORY_ENTRIES := by
  unfold createFile
  split
  · exact h
  · rename_i hfull
    have hlt : s.directory.length < MAX_DIRECTORY_ENTRIES := by
      by_contra hc
      exact hfull (Or.inl (by omega))
    rcases store_directory_length s name data Message.created with e | e <;> omega

theorem copyFromWindows_directory_length (s : VirtualFileSystem) (path : String)
    (file : Option (List Byte)) (h : s.directory.length ≤ MAX_DIRECTORY_ENTRIES) :
    (s.copyFromWindows path file).2.directory.length ≤ MAX_DIRECTORY_ENTRIES := by
  unfold copyFromWindows
  split
  · exact h
  · rename_i hfull
    have hlt : s.directory.length < MAX_DIRECTORY_ENTRIES := by
      by_contra hc
      exact hfull (Or.inl (by omega))
    cases file with
    | none => exact h
    | some data =>
      rcases store_directory_length s (fileNameOf path) data Message.copiedIn with e | e <;>
        simp only [] <;> omega

theorem modifyFile_directory_length (s : VirtualFileSystem) (p : Nat) (data : List Byte) :
    (s.modifyFile p data).2.directory.length = s.directory.length := by
  unfold modifyFile
  split
  · rfl
  · simp only []
    split
    · rfl
    · split
      · rfl
      · split
        · simp [writeToDisk, (allocateBlocks_frame _ _).2.1, freeAllocatedBlocks]
        · simp [writeToDisk, setEntry, (allocateBlocks_frame _ _).2.1, freeAllocatedBlocks]

theorem deleteFile_directory_length (s : VirtualFileSystem) (p : Nat) :
    (s.deleteFile p).2.directory.length ≤ s.directory.length := by
  unfold deleteFile
  split
  · exact Nat.le_refl _
  · simp only []
    split
    · exact Nat.le_refl _
    · split
      · exact Nat.le_refl _
      · simp [freeAllocatedBlocks, List.length_eraseIdx]
        split <;> omega

/-- C10 (capacity enforcement): when the directory holds
`MAX_DIRECTORY_ENTRIES = 2097` entries or more, `createFile` and
`copyFromWindows` refuse every name and content and return the state they were
given (directory, name index, both pools and disk unchanged), whatever the
pools hold; and no reachable state has more than `MAX_DIRECTORY_ENTRIES`
entries. -/
theorem create_refused_at_capacity :
    MAX_DIRECTORY_ENTRIES = 2097 ∧
    (∀ (s : VirtualFileSystem) (name : String) (data : List Byte),
      s.directory.length ≥ MAX_DIRECTORY_ENTRIES →
        s.createFile name data = (Message.diskFull, s)) ∧
    (∀ (s : VirtualFileSystem) (path : String) (file : Option (List Byte)),
      s.directory.length ≥ MAX_DIRECTORY_ENTRIES →
        s.copyFromWindows path file = (Message.diskFull, s)) ∧
    (∀ s : VirtualFileSystem, Reachable s → s.directory.length ≤ MAX_DIRECTORY_ENTRIES) := by
  refine ⟨by decide, ?_, ?_, ?_⟩
  · intro s name data h
    have hfull : diskFull s := Or.inl h
    unfold createFile
    rw [if_pos hfull]
  · intro s path file h
    have hfull : diskFull s := Or.inl h
    unfold copyFromWindows
    rw [if_pos hfull]
  · intro s hs
    induction hs with
    | init => simp [init]
    | step s op _ ih =>
      cases op with
      | createFile name data => exact createFile_directory_length s name data ih
      | copyFromWindows path file => exact copyFromWindows_directory_length s path file ih
      | modifyFile p data =>
        show (s.modifyFile p data).2.directory.length ≤ _
        rw [modifyFile_directory_length]; exact ih
      | deleteFile p => exact le_trans (deleteFile_directory_length s p) ih

/-- Witness for C10: a state whose directory holds 2097 entries, with every
block but one free. -/
theorem create_refused_at_capacity_witness :
    ({ init with directory := List.replicate 2097 ⟨0, ⟨"f", [0], 1⟩⟩ } :
        VirtualFileSystem).directory.length ≥ MAX_DIRECTORY_ENTRIES ∧
    ({ init with directory := List.replicate 2097 ⟨0, ⟨"f", [0], 1⟩⟩ } :
        VirtualFileSystem).createFile "g" [1]
      = (Message.diskFull,
          { init with directory := List.replicate 2097 ⟨0, ⟨"f", [0], 1⟩⟩ }) :=
  have h : ({ init with directory := List.replicate 2097 ⟨0, ⟨"f", [0], 1⟩⟩ } :
      VirtualFileSystem).directory.length ≥ MAX_DIRECTORY_ENTRIES := by
    simp only [List.length_replicate]; decide
  ⟨h, create_refused_at_capacity.2.1 _ "g" [1] h⟩

/-! ## Reachable states -/

theorem reachable_run (s : VirtualFileSystem) (ops : List Op) (h : Reachable s) :
    Reachable (run s ops) := by
  induction ops generalizing s with
  | nil => exact h
  | cons op rest ih => exact ih (step s op) (Reachable.step s op h)

theorem modifyFile_of_valid (s : VirtualFileSystem) (p : Nat) (data : List Byte) (j : DirNode)
    (hj : s.directory.get? (indexOfPosition p) = some j) :
    s.modifyFile p data
      = if ((s.freeAllocatedBlocks j.entry.blocks).allocateBlocks data.length).1.isEmpty then
          (Message.restoring,
            ((((s.freeAllocatedBlocks j.entry.blocks).allocateBlocks data.length).2.allocateBlocks
                (s.readFromDisk j.entry).length).2.writeToDisk
              ((((s.freeAllocatedBlocks j.entry.blocks).allocateBlocks data.length).2.allocateBlocks
                (s.readFromDisk j.entry).length).1)
              (s.readFromDisk j.entry)))
        else
          (Message.modified,
            { (((s.freeAllocatedBlocks j.entry.blocks).allocateBlocks data.length).2.writeToDisk
                ((s.freeAllocatedBlocks j.entry.blocks).allocateBlocks data.length).1 data) with
              directory := setEntry s.directory (indexOfPosition p)
                (fun f => f.setSize data.length) }) := by
  have hlt : indexOfPosition p < s.directory.length := by
    rcases Nat.lt_or_ge (indexOfPosition p) s.directory.length with h | h
    · exact h
    · rw [List.get?_eq_none.mpr h] at hj; cases hj
  have hne : s.directory.isEmpty = false := by
    cases hd : s.directory with
    | nil => rw [hd] at hlt; cases hlt
    | cons a l => rfl
  have hge : ¬ (indexOfPosition p ≥ s.directory.length) := by omega
  unfold modifyFile
  simp only [hne, hj, hge, FileEntry.getBlocks, Bool.false_eq_true, if_false]
  split
  · rfl
  · simp [writeToDisk, (allocateBlocks_frame _ _).2.1, freeAllocatedBlocks]

theorem modifyFile_of_short (s : VirtualFileSystem) (p : Nat) (data : List Byte) (addr : Nat)
    (f : FileEntry) (hj : s.directory.get? (indexOfPosition p) = some ⟨addr, f⟩)
    (hshort : s.freedBlocks.length + f.blocks.length + s.freeBlocks.length
      < blocksFor data.length) :
    s.modifyFile p data = (Message.restoring, restoreResult s f) := by
  rw [modifyFile_of_valid s p data ⟨addr, f⟩ hj]
  have hs : (s.freeAllocatedBlocks f.blocks).freedBlocks.length
      + (s.freeAllocatedBlocks f.blocks).freeBlocks.length < blocksFor data.length := by
    simp only [freeAllocatedBlocks, pushAll_eq, List.length_append, List.length_reverse]
    omega
  rw [allocateBlocks_of_short _ _ hs]
  rfl

theorem oversizedContent_length : oversizedContent.length = 8388609 := by
  unfold oversizedContent
  rw [List.length_replicate]
  decide

theorem run_two (s : VirtualFileSystem) (a b : Op) : run s [a, b] = step (step s a) b := by
  simp only [run, List.foldl]

theorem step_createFile (s : VirtualFileSystem) (name : String) (data : List Byte) :
    step s (Op.createFile name data) = (s.createFile name data).2 := rfl

theorem step_modifyFile (s : VirtualFileSystem) (p : Nat) (data : List Byte) :
    step s (Op.modifyFile p data) = (s.modifyFile p data).2 := rfl

theorem step_deleteFile (s : VirtualFileSystem) (p : Nat) :
    step s (Op.deleteFile p) = (s.deleteFile p).2 := rfl

theorem first_failed_modify :
    run init [Op.createFile "a" twoBlockContent, Op.modifyFile 1 oversizedContent]
      = restoreResult (init.createFile "a" twoBlockContent).2 ⟨"a", [0, 1], 1025⟩ := by
  have hclosed : (init.createFile "a" twoBlockContent).2.directory.get? (indexOfPosition 1)
        = some ⟨0, ⟨"a", [0, 1], 1025⟩⟩ ∧
      (init.createFile "a" twoBlockContent).2.freedBlocks.length + 2
        + (init.createFile "a" twoBlockContent).2.freeBlocks.length = 8192 := by decide!
  have hj := hclosed.1
  have hcount := hclosed.2
  rw [run_two, step_createFile, step_modifyFile]
  rw [modifyFile_of_short _ 1 _ 0 ⟨"a", [0, 1], 1025⟩ hj
    (by rw [oversizedContent_length]; simp only [List.length_cons, List.length_nil]; rw [hcount]; decide)]

theorem restored_once_facts :
    (restoreResult (init.createFile "a" twoBlockContent).2
        ⟨"a", [0, 1], 1025⟩).directory.get? (indexOfPosition 1)
      = some ⟨0, ⟨"a", [0, 1], 1025⟩⟩ ∧
    (restoreResult (init.createFile "a" twoBlockContent).2
        ⟨"a", [0, 1], 1025⟩).freedBlocks.length + 2
      + (restoreResult (init.createFile "a" twoBlockContent).2
        ⟨"a", [0, 1], 1025⟩).freeBlocks.length = 8192 ∧
    (readFromDisk (restoreResult (init.createFile "a" twoBlockContent).2
      ⟨"a", [0, 1], 1025⟩) ⟨"a", [0, 1], 1025⟩).take 2 = [1, 1] ∧
    entries (restoreResult (init.createFile "a" twoBlockContent).2 ⟨"a", [0, 1], 1025⟩)
      = [⟨"a", [0, 1], 1025⟩] := by decide!

theorem second_failed_modify :
    (run init [Op.createFile "a" twoBlockContent,
        Op.modifyFile 1 oversizedContent]).modifyFile 1 oversizedContent
      = (Message.restoring,
          restoreResult (restoreResult (init.createFile "a" twoBlockContent).2
            ⟨"a", [0, 1], 1025⟩) ⟨"a", [0, 1], 1025⟩) := by
  have hj := restored_once_facts.1
  have hcount := restored_once_facts.2.1
  rw [first_failed_modify]
  rw [modifyFile_of_short _ 1 _ 0 ⟨"a", [0, 1], 1025⟩ hj
    (by rw [oversizedContent_length]; simp only [List.length_cons, List.length_nil]; rw [hcount]; decide)]

/-! ## What `modifyFile` does to the record -/

/-- C4 (a failed modify restores the file) fails on reachable states.

Lack of blocks: a 1025-byte file is created and a first modification with more
bytes than the data zone holds is refused.  A second such modification finds
8192 free indices for 8193 needed blocks, is refused too and keeps the size,
but the record then reads back `2, 1, ...` where it read `1, 1, ...` before the
attempt: the old content was rewritten into blocks 1, 0 while the record still
lists its blocks as 0, 1.

Empty content: on the freshly created 1025-byte file, a modification with no
bytes gets the empty vector from `allocateBlocks`, takes the restore branch,
and leaves the same damage. -/
theorem failed_modify_corrupts_content :
    (Reachable (run init [Op.createFile "a" twoBlockContent, Op.modifyFile 1 oversizedContent]) ∧
      entries (run init [Op.createFile "a" twoBlockContent, Op.modifyFile 1 oversizedContent])
        = [⟨"a", [0, 1], 1025⟩] ∧
      (((run init [Op.createFile "a" twoBlockContent,
          Op.modifyFile 1 oversizedContent]).freeAllocatedBlocks [0, 1]).allocateBlocks
            oversizedContent.length).1 = [] ∧
      ((run init [Op.createFile "a" twoBlockContent,
          Op.modifyFile 1 oversizedContent]).modifyFile 1 oversizedContent).1
        = Message.restoring ∧
      entries ((run init [Op.createFile "a" twoBlockContent,
          Op.modifyFile 1 oversizedContent]).modifyFile 1 oversizedContent).2
        = [⟨"a", [0, 1], 1025⟩] ∧
      (readFromDisk (run init [Op.createFile "a" twoBlockContent,
          Op.modifyFile 1 oversizedContent]) ⟨"a", [0, 1], 1025⟩).take 2 = [1, 1] ∧
      (readFromDisk ((run init [Op.createFile "a" twoBlockContent,
          Op.modifyFile 1 oversizedContent]).modifyFile 1 oversizedContent).2
        ⟨"a", [0, 1], 1025⟩).take 2 = [2, 1] ∧
      readFromDisk ((run init [Op.createFile "a" twoBlockContent,
          Op.modifyFile 1 oversizedContent]).modifyFile 1 oversizedContent).2
          ⟨"a", [0, 1], 1025⟩
        ≠ readFromDisk (run init [Op.createFile "a" twoBlockContent,
          Op.modifyFile 1 oversizedContent]) ⟨"a", [0, 1], 1025⟩) ∧
    (Reachable (run init [Op.createFile "a" twoBlockContent]) ∧
      entries (run init [Op.createFile "a" twoBlockContent]) = [⟨"a", [0, 1], 1025⟩] ∧
      (((run init [Op.createFile "a" twoBlockContent]).freeAllocatedBlocks
          [0, 1]).allocateBlocks ([] : List Byte).length).1 = [] ∧
      ((run init [Op.createFile "a" twoBlockContent]).modifyFile 1 []).1 = Message.restoring ∧
      entries ((run init [Op.createFile "a" twoBlockContent]).modifyFile 1 []).2
        = [⟨"a", [0, 1], 1025⟩] ∧
      (readFromDisk (run init [Op.createFile "a" twoBlockContent])
        ⟨"a", [0, 1], 1025⟩).take 2 = [1, 1] ∧
      (readFromDisk ((run init [Op.createFile "a" twoBlockContent]).modifyFile 1 []).2
        ⟨"a", [0, 1], 1025⟩).take 2 = [2, 1]) := by
  have hclosed :
      (readFromDisk (restoreResult (restoreResult (init.createFile "a"
        twoBlockContent).2 ⟨"a", [0, 1], 1025⟩) ⟨"a", [0, 1], 1025⟩)
        ⟨"a", [0, 1], 1025⟩).take 2 = [2, 1] ∧
      entries (restoreResult (restoreResult (init.createFile "a" twoBlockContent).2
        ⟨"a", [0, 1], 1025⟩) ⟨"a", [0, 1], 1025⟩) = [⟨"a", [0, 1], 1025⟩] := by decide!
  have hempty :
      entries (run init [Op.createFile "a" twoBlockContent]) = [⟨"a", [0, 1], 1025⟩] ∧
      (((run init [Op.createFile "a" twoBlockContent]).freeAllocatedBlocks
          [0, 1]).allocateBlocks ([] : List Byte).length).1 = [] ∧
      ((run init [Op.createFile "a" twoBlockContent]).modifyFile 1 []).1 = Message.restoring ∧
      entries ((run init [Op.createFile "a" twoBlockContent]).modifyFile 1 []).2
        = [⟨"a", [0, 1], 1025⟩] ∧
      (readFromDisk (run init [Op.createFile "a" twoBlockContent])
        ⟨"a", [0, 1], 1025⟩).take 2 = [1, 1] ∧
      (readFromDisk ((run init [Op.createFile "a" twoBlockContent]).modifyFile 1 []).2
        ⟨"a", [0, 1], 1025⟩).take 2 = [2, 1] := by decide!
  have hbefore := restored_once_facts.2.2.1
  have hafter := hclosed.1
  have hcount := restored_once_facts.2.1
  refine ⟨⟨reachable_run _ _ Reachable.init, ?_⟩, reachable_run _ _ Reachable.init, hempty⟩
  rw [second_failed_modify, first_failed_modify]
  refine ⟨restored_once_facts.2.2.2, ?_, ?_, hclosed.2, hbefore, hafter, ?_⟩
  · rw [allocateBlocks_of_short _ _
      (by
        rw [oversizedContent_length]
        simp only [freeAllocatedBlocks, pushAll_eq, List.length_append, List.length_reverse,
          List.length_cons, List.length_nil]
        have := hcount
        have hb : blocksFor 8388609 = 8193 := by decide
        omega)]
  · rfl
  · intro h
    have h2 := congrArg (List.take 2) h
    rw [hbefore] at h2
    exact absurd (hafter.symm.trans h2) (by decide)

/-- C2 (conservation) fails on a reachable state.  After a 1025-byte file
(blocks 0, 1) is created and modified to a 1-byte content, the record still
lists blocks 0 and 1 while block 0 is back in the LIFO pool: the three counts
add up to `blockCount + 1` and block 0 is both free and owned. -/
theorem conservation_broken_by_modify :
    Reachable (run init [Op.createFile "a" twoBlockContent, Op.modifyFile 1 [7]]) ∧
    entries (run init [Op.createFile "a" twoBlockContent, Op.modifyFile 1 [7]])
      = [⟨"a", [0, 1], 1⟩] ∧
    (run init [Op.createFile "a" twoBlockContent, Op.modifyFile 1 [7]]).freedBlocks = [0] ∧
    (run init [Op.createFile "a" twoBlockContent, Op.modifyFile 1 [7]]).freeBlocks.length
      + (run init [Op.createFile "a" twoBlockContent, Op.modifyFile 1 [7]]).freedBlocks.length
      + ownedCount (run init [Op.createFile "a" twoBlockContent, Op.modifyFile 1 [7]])
      = blockCount + 1 ∧
    ¬ Conserved (run init [Op.createFile "a" twoBlockContent, Op.modifyFile 1 [7]]) := by
  have hclosed :
      entries (run init [Op.createFile "a" twoBlockContent, Op.modifyFile 1 [7]])
        = [⟨"a", [0, 1], 1⟩] ∧
      (run init [Op.createFile "a" twoBlockContent, Op.modifyFile 1 [7]]).freedBlocks = [0] ∧
      (run init [Op.createFile "a" twoBlockContent, Op.modifyFile 1 [7]]).freeBlocks.length
        + (run init [Op.createFile "a" twoBlockContent, Op.modifyFile 1 [7]]).freedBlocks.length
        + ownedCount (run init [Op.createFile "a" twoBlockContent, Op.modifyFile 1 [7]])
        = blockCount + 1 := by decide!
  refine ⟨reachable_run _ _ Reachable.init, hclosed.1, hclosed.2.1, hclosed.2.2, ?_⟩
  intro h
  have h0 := h 0 (by decide)
  rw [List.count_append, List.count_append, hclosed.1, hclosed.2.1] at h0
  have h1 : List.count 0 [0] = 1 := by decide
  have h2 : List.count 0
      (([⟨"a", [0, 1], 1⟩] : List FileEntry).flatMap FileEntry.blocks) = 1 := by decide
  rw [h1, h2] at h0
  omega

/-- C3 (a successful modify replaces the record's blocks) fails on a reachable
state.  A 1-byte file (block 0) is modified to a 1025-byte content: the
allocation returns blocks 0, 1 and the content is written there, the size
becomes 1025, but the record keeps the block list `[0]`, so reading it returns
1024 bytes and not the new content. -/
theorem modify_keeps_old_block_list :
    Reachable (run init [Op.createFile "a" [5]]) ∧
    entries (run init [Op.createFile "a" [5]]) = [⟨"a", [0], 1⟩] ∧
    (((run init [Op.createFile "a" [5]]).freeAllocatedBlocks [0]).allocateBlocks
      twoBlockContent.length).1 = [0, 1] ∧
    ((run init [Op.createFile "a" [5]]).modifyFile 1 twoBlockContent).1 = Message.modified ∧
    entries ((run init [Op.createFile "a" [5]]).modifyFile 1 twoBlockContent).2
      = [⟨"a", [0], 1025⟩] ∧
    (readFromDisk ((run init [Op.createFile "a" [5]]).modifyFile 1 twoBlockContent).2
      ⟨"a", [0], 1025⟩).length = 1024 ∧
    readFromDisk ((run init [Op.createFile "a" [5]]).modifyFile 1 twoBlockContent).2
      ⟨"a", [0], 1025⟩ ≠ twoBlockContent := by
  have hclosed :
      entries (run init [Op.createFile "a" [5]]) = [⟨"a", [0], 1⟩] ∧
      (((run init [Op.createFile "a" [5]]).freeAllocatedBlocks [0]).allocateBlocks
        twoBlockContent.length).1 = [0, 1] ∧
      ((run init [Op.createFile "a" [5]]).modifyFile 1 twoBlockContent).1 = Message.modified ∧
      entries ((run init [Op.createFile "a" [5]]).modifyFile 1 twoBlockContent).2
        = [⟨"a", [0], 1025⟩] ∧
      (readFromDisk ((run init [Op.createFile "a" [5]]).modifyFile 1 twoBlockContent).2
        ⟨"a", [0], 1025⟩).length = 1024 ∧
      twoBlockContent.length = 1025 := by decide!
  refine ⟨reachable_run _ _ Reachable.init, hclosed.1, hclosed.2.1, hclosed.2.2.1,
    hclosed.2.2.2.1, hclosed.2.2.2.2.1, ?_⟩
  intro h
  have hlen := hclosed.2.2.2.2.1
  rw [h, hclosed.2.2.2.2.2] at hlen
  exact absurd hlen (by decide)

/-- C8 (sizing invariant) fails on a reachable state: after a 1-byte file is
modified to a 1025-byte content, its entry has size 1025, which needs 2
blocks, and a block list of length 1. -/
theorem sizing_broken_by_modify :
    Reachable (run init [Op.createFile "a" [5], Op.modifyFile 1 twoBlockContent]) ∧
    entries (run init [Op.createFile "a" [5], Op.modifyFile 1 twoBlockContent])
      = [⟨"a", [0], 1025⟩] ∧
    ceilBlocks 1025 = 2 ∧
    ¬ (∀ f ∈ entries (run init [Op.createFile "a" [5], Op.modifyFile 1 twoBlockContent]),
        ceilBlocks f.size = f.blocks.length) := by
  have he : entries (run init [Op.createFile "a" [5], Op.modifyFile 1 twoBlockContent])
      = [⟨"a", [0], 1025⟩] := by decide!
  have hc : ceilBlocks 1025 = 2 := by rw [← blocksFor_eq_ceilBlocks]; decide
  refine ⟨reachable_run _ _ Reachable.init, he, hc, ?_⟩
  intro h
  have h1 := h ⟨"a", [0], 1025⟩ (by rw [he]; exact List.mem_singleton.mpr rfl)
  rw [hc] at h1
  exact absurd h1 (by decide)

/-- C9 (usage formula and range) fails on a reachable state.  After a
1025-byte file is created, modified to a 1-byte content and deleted, the pools
hold 8193 indices, the unsigned subtraction in `usagePercent` wraps to
`2 ^ 64 - 1024`, and the result is above 1 and differs from
`(blockCount - freeCount) / blockCount`. -/
theorem usage_wraps_after_modify_and_delete :
    Reachable (run init [Op.createFile "a" twoBlockContent, Op.modifyFile 1 [7],
      Op.deleteFile 1]) ∧
    (run init [Op.createFile "a" twoBlockContent, Op.modifyFile 1 [7],
      Op.deleteFile 1]).freeBlocks.length
      + (run init [Op.createFile "a" twoBlockContent, Op.modifyFile 1 [7],
          Op.deleteFile 1]).freedBlocks.length = 8193 ∧
    usedSpace (run init [Op.createFile "a" twoBlockContent, Op.modifyFile 1 [7],
      Op.deleteFile 1]) = 2 ^ 64 - 1024 ∧
    usagePercent (run init [Op.createFile "a" twoBlockContent, Op.modifyFile 1 [7],
      Op.deleteFile 1]) > 1 ∧
    usagePercent (run init [Op.createFile "a" twoBlockContent, Op.modifyFile 1 [7],
      Op.deleteFile 1]) ≠ ((blockCount : ℚ) - (8193 : ℚ)) / (blockCount : ℚ) := by
  have hclosed :
      (run init [Op.createFile "a" twoBlockContent, Op.modifyFile 1 [7],
        Op.deleteFile 1]).freeBlocks.length
        + (run init [Op.createFile "a" twoBlockContent, Op.modifyFile 1 [7],
            Op.deleteFile 1]).freedBlocks.length = 8193 ∧
      usedSpace (run init [Op.createFile "a" twoBlockContent, Op.modifyFile 1 [7],
        Op.deleteFile 1]) = 2 ^ 64 - 1024 := by decide!
  have hu := hclosed.2
  refine ⟨reachable_run _ _ Reachable.init, hclosed.1, hu, ?_, ?_⟩
  · unfold usagePercent
    rw [hu]
    norm_num [DATA_SPACE_SIZE]
  · unfold usagePercent
    rw [hu]
    norm_num [DATA_SPACE_SIZE, blockCount, BLOCK_SIZE]

/-! ## The usage threshold -/

theorem usedSpace_of_le (s : VirtualFileSystem)
    (h : s.freeBlocks.length + s.freedBlocks.length ≤ blockCount) :
    usedSpace s = DATA_SPACE_SIZE - (s.freeBlocks.length + s.freedBlocks.length) * BLOCK_SIZE := by
  unfold usedSpace SIZE_MOD
  unfold blockCount DATA_SPACE_SIZE BLOCK_SIZE at *
  simp only []
  omega

/-- C11 (threshold enforcement): whenever `usagePercent` exceeds 0.8,
`createFile` and `copyFromWindows` refuse every name and content and return
the state they were given, whatever the pools hold; with at most `blockCount`
free indices this is the case exactly when 6554 or more of the 8192 blocks are
not free; and when `usagePercent` is at most 0.8 and the directory is below
its maximum the guard lets the request through to the name check. -/
theorem create_refused_above_threshold :
    (∀ (s : VirtualFileSystem) (name : String) (data : List Byte),
      usagePercent s > 0.8 → s.createFile name data = (Message.diskFull, s)) ∧
    (∀ (s : VirtualFileSystem) (path : String) (file : Option (List Byte)),
      usagePercent s > 0.8 → s.copyFromWindows path file = (Message.diskFull, s)) ∧
    (∀ s : VirtualFileSystem, s.freeBlocks.length + s.freedBlocks.length ≤ blockCount →
      (usagePercent s > 0.8 ↔
        6554 ≤ blockCount - (s.freeBlocks.length + s.freedBlocks.length))) ∧
    (∀ (s : VirtualFileSystem) (name : String) (data : List Byte),
      usagePercent s ≤ 0.8 → s.directory.length < MAX_DIRECTORY_ENTRIES →
        s.createFile name data = s.store name data Message.created) ∧
    (∀ (s : VirtualFileSystem) (path : String) (data : List Byte),
      usagePercent s ≤ 0.8 → s.directory.length < MAX_DIRECTORY_ENTRIES →
        s.copyFromWindows path (some data)
          = s.store (fileNameOf path) data Message.copiedIn) := by
  refine ⟨?_, ?_, ?_, ?_, ?_⟩
  · intro s name data h
    have hfull : diskFull s := Or.inr h
    unfold createFile
    rw [if_pos hfull]
  · intro s path file h
    have hfull : diskFull s := Or.inr h
    unfold copyFromWindows
    rw [if_pos hfull]
  · intro s h
    rw [usagePercent_gt_iff, usedSpace_of_le s h]
    unfold blockCount DATA_SPACE_SIZE BLOCK_SIZE at *
    omega
  · intro s name data h hlen
    have hfull : ¬ diskFull s := by
      intro hf
      rcases hf with hf | hf
      · omega
      · exact absurd hf (not_lt.mpr h)
    unfold createFile
    rw [if_neg hfull]
  · intro s path data h hlen
    have hfull : ¬ diskFull s := by
      intro hf
      rcases hf with hf | hf
      · omega
      · exact absurd hf (not_lt.mpr h)
    unfold copyFromWindows
    rw [if_neg hfull]

/-- Witness for C11: with 1638 free indices (6554 blocks in use) a one-byte
file, for which a free block is at hand, is refused. -/
theorem create_refused_above_threshold_witness :
    usagePercent ({ init with freeBlocks := List.range' 0 1638 } : VirtualFileSystem) > 0.8 ∧
    ({ init with freeBlocks := List.range' 0 1638 } : VirtualFileSystem).createFile "a" [1]
      = (Message.diskFull, { init with freeBlocks := List.range' 0 1638 }) :=
  have h : usagePercent ({ init with freeBlocks := List.range' 0 1638 } : VirtualFileSystem)
      > 0.8 := (usagePercent_gt_iff _).mpr (by decide!)
  ⟨h, create_refused_above_threshold.1 _ "a" [1] h⟩

/-! ## Create -/

theorem isEmpty_eq_false_of_ne_nil {α : Type} (l : List α) (h : l ≠ []) : l.isEmpty = false := by
  cases l with
  | nil => exact absurd rfl h
  | cons a t => rfl

theorem store_of_exists (s : VirtualFileSystem) (name : String) (data : List Byte)
    (ok : Message) (h : indexCount s name = true) :
    s.store name data ok = (Message.fileExists, s) := by
  unfold store
  rw [if_pos h]

theorem store_of_empty_alloc (s : VirtualFileSystem) (name : String) (data : List Byte)
    (ok : Message) (hnew : indexCount s name = false)
    (h : (s.allocateBlocks data.length).1 = []) :
    s.store name data ok = (Message.notEnoughSpace, (s.allocateBlocks data.length).2) := by
  unfold store
  simp only [hnew, h, List.isEmpty_nil, Bool.false_eq_true, if_false, if_true]

/-- When `store` answers with its success message, the name was new and the
allocation returned blocks. -/
theorem store_ok_inv (s : VirtualFileSystem) (name : String) (data : List Byte)
    (ok : Message) (hok1 : ok ≠ Message.fileExists) (hok2 : ok ≠ Message.notEnoughSpace)
    (h : (s.store name data ok).1 = ok) :
    indexCount s name = false ∧ (s.allocateBlocks data.length).1 ≠ [] := by
  cases hc : indexCount s name with
  | true =>
    rw [store_of_exists s name data ok hc] at h
    exact absurd h.symm hok1
  | false =>
    refine ⟨rfl, ?_⟩
    intro he
    rw [store_of_empty_alloc s name data ok hc he] at h
    exact absurd h.symm hok2

theorem createFile_created_inv (s : VirtualFileSystem) (name : String) (data : List Byte)
    (h : (s.createFile name data).1 = Message.created) :
    ¬ diskFull s ∧ indexCount s name = false ∧ (s.allocateBlocks data.length).1 ≠ [] := by
  unfold createFile at h
  by_cases hf : diskFull s
  · rw [if_pos hf] at h; cases h
  · rw [if_neg hf] at h
    exact ⟨hf, store_ok_inv s name data _ (by decide) (by decide) h⟩

theorem copyFromWindows_copiedIn_inv (s : VirtualFileSystem) (path : String)
    (file : Option (List Byte)) (h : (s.copyFromWindows path file).1 = Message.copiedIn) :
    ∃ data, file = some data ∧ ¬ diskFull s ∧ indexCount s (fileNameOf path) = false ∧
      (s.allocateBlocks data.length).1 ≠ [] := by
  unfold copyFromWindows at h
  by_cases hf : diskFull s
  · rw [if_pos hf] at h; cases h
  · rw [if_neg hf] at h
    cases file with
    | none => cases h
    | some data =>
      exact ⟨data, rfl, hf, store_ok_inv s _ data _ (by decide) (by decide) h⟩

theorem indexFind_indexSet (idx : List (String × Nat)) (name : String) (a : Nat) :
    indexFind (indexSet idx name a) name = some a := by
  simp [indexFind, indexSet]

/-- A non-empty result of `allocateBlocks`, from pools with pairwise distinct
indices, is a list of pairwise distinct blocks that holds `n` bytes. -/
theorem allocateBlocks_fits (s : VirtualFileSystem) (n : Nat)
    (hnd : (s.freedBlocks ++ s.freeBlocks).Nodup) (hne : (s.allocateBlocks n).1 ≠ []) :
    (s.allocateBlocks n).1.Nodup ∧ n ≤ (s.allocateBlocks n).1.length * BLOCK_SIZE := by
  by_cases hshort : s.freedBlocks.length + s.freeBlocks.length < blocksFor n
  · rw [allocateBlocks_of_short s n hshort] at hne
    exact absurd rfl hne
  · have hen : blocksFor n ≤ s.freedBlocks.length + s.freeBlocks.length := by omega
    rw [allocateBlocks_of_enough s n hen]
    refine ⟨hnd.sublist
      (List.Sublist.append (List.take_sublist _ _) (List.take_sublist _ _)), ?_⟩
    simp only [List.length_append, List.length_take]
    unfold blocksFor BLOCK_SIZE at *
    omega

/-- Writing `data` into pairwise distinct blocks that hold it, then reading an
entry with those blocks and the size of `data`, returns `data`. -/
theorem readFromDisk_writeToDisk (s : VirtualFileSystem) (blocks : List Nat) (data : List Byte)
    (name : String) (hnd : blocks.Nodup) (hfit : data.length ≤ blocks.length * BLOCK_SIZE) :
    readFromDisk (writeToDisk s blocks data) ⟨name, blocks, data.length⟩ = data := by
  unfold readFromDisk writeToDisk FileEntry.getBlocks FileEntry.getSize
  have h := readLoop_writeLoop data blocks 0 s.disk [] hnd (by simpa using hfit)
  simpa using h

/-- Whenever `createFile` or `copyFromWindows` succeeds, the directory is the
previous sequence followed by one new node whose entry is (name, allocated
blocks, length of the content), and the name index maps the name to that
node. -/
theorem create_appends_entry :
    (∀ (s : VirtualFileSystem) (name : String) (data : List Byte),
      (s.createFile name data).1 = Message.created →
        (s.createFile name data).2.directory
          = s.directory
            ++ [⟨s.nextAddr, ⟨name, (s.allocateBlocks data.length).1, data.length⟩⟩] ∧
        indexFind (s.createFile name data).2.directoryIndex name = some s.nextAddr) ∧
    (∀ (s : VirtualFileSystem) (path : String) (data : List Byte),
      (s.copyFromWindows path (some data)).1 = Message.copiedIn →
        (s.copyFromWindows path (some data)).2.directory
          = s.directory
            ++ [⟨s.nextAddr,
                ⟨fileNameOf path, (s.allocateBlocks data.length).1, data.length⟩⟩] ∧
        indexFind (s.copyFromWindows path (some data)).2.directoryIndex (fileNameOf path)
          = some s.nextAddr) := by
  constructor
  · intro s name data h
    obtain ⟨hf, hnew, hne⟩ := createFile_created_inv s name data h
    unfold createFile
    rw [if_neg hf, store_of_alloc s name data _ hnew hne]
    exact ⟨rfl, indexFind_indexSet _ _ _⟩
  · intro s path data h
    obtain ⟨d, hd, hf, hnew, hne⟩ := copyFromWindows_copiedIn_inv s path (some data) h
    cases hd
    unfold copyFromWindows
    rw [if_neg hf]
    simp only []
    rw [store_of_alloc s _ data _ hnew hne]
    exact ⟨rfl, indexFind_indexSet _ _ _⟩

/-- When the two pools hold pairwise distinct indices, reading the entry that
a successful `createFile` or `copyFromWindows` appended returns the content
(for the code the indices must also be below `blockCount`, as they are in
every reachable state). -/
theorem create_reads_back_of_nodup (s : VirtualFileSystem)
    (hnd : (s.freedBlocks ++ s.freeBlocks).Nodup) :
    (∀ (name : String) (data : List Byte),
      (s.createFile name data).1 = Message.created →
        readFromDisk (s.createFile name data).2
          ⟨name, (s.allocateBlocks data.length).1, data.length⟩ = data) ∧
    (∀ (path : String) (data : List Byte),
      (s.copyFromWindows path (some data)).1 = Message.copiedIn →
        readFromDisk (s.copyFromWindows path (some data)).2
          ⟨fileNameOf path, (s.allocateBlocks data.length).1, data.length⟩ = data) := by
  constructor
  · intro name data h
    obtain ⟨hf, hnew, hne⟩ := createFile_created_inv s name data h
    unfold createFile
    rw [if_neg hf, store_of_alloc s name data _ hnew hne]
    obtain ⟨h1, h2⟩ := allocateBlocks_fits s data.length hnd hne
    exact readFromDisk_writeToDisk s _ data name h1 h2
  · intro path data h
    obtain ⟨d, hd, hf, hnew, hne⟩ := copyFromWindows_copiedIn_inv s path (some data) h
    cases hd
    unfold copyFromWindows
    rw [if_neg hf]
    simp only []
    rw [store_of_alloc s _ data _ hnew hne]
    obtain ⟨h1, h2⟩ := allocateBlocks_fits s data.length hnd hne
    exact readFromDisk_writeToDisk s _ data _ h1 h2

/-- C12 (create appends in creation order) fails in a reachable state.  After
a two-block file was created and shrunk twice, the stale block list was
released twice and the LIFO pool holds `0, 0`; creating a 1025-byte file then
succeeds with the block list `[0, 0]`, the second chunk overwrites the first,
and the new entry reads back `2, 1, ...` where the content is `1, 1, ...`. -/
theorem create_read_back_fails_on_repeated_index :
    Reachable (run init [Op.createFile "a" twoBlockContent, Op.modifyFile 1 [7],
      Op.modifyFile 1 [7]]) ∧
    (run init [Op.createFile "a" twoBlockContent, Op.modifyFile 1 [7],
      Op.modifyFile 1 [7]]).freedBlocks = [0, 0] ∧
    ((run init [Op.createFile "a" twoBlockContent, Op.modifyFile 1 [7],
      Op.modifyFile 1 [7]]).createFile "c" twoBlockContent).1 = Message.created ∧
    entries ((run init [Op.createFile "a" twoBlockContent, Op.modifyFile 1 [7],
      Op.modifyFile 1 [7]]).createFile "c" twoBlockContent).2
      = [⟨"a", [0, 1], 1⟩, ⟨"c", [0, 0], 1025⟩] ∧
    readFromDisk ((run init [Op.createFile "a" twoBlockContent, Op.modifyFile 1 [7],
      Op.modifyFile 1 [7]]).createFile "c" twoBlockContent).2 ⟨"c", [0, 0], 1025⟩
      ≠ twoBlockContent := by
  have hB :
      (run init [Op.createFile "a" twoBlockContent, Op.modifyFile 1 [7],
        Op.modifyFile 1 [7]]).freedBlocks = [0, 0] ∧
      ((run init [Op.createFile "a" twoBlockContent, Op.modifyFile 1 [7],
        Op.modifyFile 1 [7]]).createFile "c" twoBlockContent).1 = Message.created ∧
      entries ((run init [Op.createFile "a" twoBlockContent, Op.modifyFile 1 [7],
        Op.modifyFile 1 [7]]).createFile "c" twoBlockContent).2
        = [⟨"a", [0, 1], 1⟩, ⟨"c", [0, 0], 1025⟩] ∧
      (readFromDisk ((run init [Op.createFile "a" twoBlockContent, Op.modifyFile 1 [7],
        Op.modifyFile 1 [7]]).createFile "c" twoBlockContent).2 ⟨"c", [0, 0], 1025⟩).take 2
        = [2, 1] ∧
      twoBlockContent.take 2 = [1, 1] := by decide!
  refine ⟨reachable_run _ _ Reachable.init, hB.1, hB.2.1, hB.2.2.1, ?_⟩
  intro h
  have h2 := hB.2.2.2.1
  rw [h, hB.2.2.2.2] at h2
  exact absurd h2 (by decide)

/-! ## The name index -/

theorem get?_lt_of_eq_some {α : Type} (l : List α) (i : Nat) (x : α)
    (h : l.get? i = some x) : i < l.length := by
  rcases Nat.lt_or_ge i l.length with h1 | h1
  · exact h1
  · rw [List.get?_eq_none.mpr h1] at h; cases h

theorem deleteFile_cases (s : VirtualFileSystem) (p : Nat) :
    s.deleteFile p = (Message.noFiles, s) ∨ s.deleteFile p = (Message.invalid, s) ∨
    ∃ j, s.directory.get? (indexOfPosition p) = some j := by
  unfold deleteFile
  split
  · exact Or.inl rfl
  · simp only []
    split
    · exact Or.inr (Or.inl rfl)
    · rename_i hlt
      cases hg : s.directory.get? (indexOfPosition p) with
      | none => exact Or.inr (Or.inl rfl)
      | some j => exact Or.inr (Or.inr ⟨j, rfl⟩)

theorem modifyFile_cases (s : VirtualFileSystem) (p : Nat) (data : List Byte) :
    s.modifyFile p data = (Message.noFiles, s) ∨ s.modifyFile p data = (Message.invalid, s) ∨
    ∃ j, s.directory.get? (indexOfPosition p) = some j := by
  unfold modifyFile
  split
  · exact Or.inl rfl
  · simp only []
    split
    · exact Or.inr (Or.inl rfl)
    · rename_i hlt
      cases hg : s.directory.get? (indexOfPosition p) with
      | none => exact Or.inr (Or.inl rfl)
      | some j => exact Or.inr (Or.inr ⟨j, rfl⟩)

theorem map_modify_of_invariant {α β : Type} (g : α → β) (f : α → α) (h : ∀ x, g (f x) = g x)
    (l : List α) (i : Nat) : (l.modify f i).map g = l.map g := by
  induction l generalizing i with
  | nil => cases i <;> rfl
  | cons a t ih =>
    cases i with
    | zero => simp [List.modify, h]
    | succ k =>
      have := ih k
      simp only [List.modify, List.modifyTailIdx, List.map_cons] at this ⊢
      rw [this]

/-- What `modifyFile` leaves untouched: the name index, the address counter,
and of every directory node its address, its name and its block list. -/
theorem modifyFile_frame (s : VirtualFileSystem) (p : Nat) (data : List Byte) :
    (s.modifyFile p data).2.directoryIndex = s.directoryIndex ∧
    (s.modifyFile p data).2.nextAddr = s.nextAddr ∧
    (s.modifyFile p data).2.directory.map (fun n => (n.addr, n.entry.name, n.entry.blocks))
      = s.directory.map (fun n => (n.addr, n.entry.name, n.entry.blocks)) := by
  rcases modifyFile_cases s p data with h | h | ⟨j, hj⟩
  · rw [h]; exact ⟨rfl, rfl, rfl⟩
  · rw [h]; exact ⟨rfl, rfl, rfl⟩
  · rw [modifyFile_of_valid s p data j hj]
    split
    · simp only [writeToDisk]
      obtain ⟨_, h2, h3, h4⟩ := allocateBlocks_frame
        ((s.freeAllocatedBlocks j.entry.blocks).allocateBlocks data.length).2
        (s.readFromDisk j.entry).length
      obtain ⟨_, g2, g3, g4⟩ := allocateBlocks_frame
        (s.freeAllocatedBlocks j.entry.blocks) data.length
      rw [h2, h3, h4, g2, g3, g4]
      exact ⟨rfl, rfl, rfl⟩
    · simp only [writeToDisk]
      obtain ⟨_, g2, g3, g4⟩ := allocateBlocks_frame
        (s.freeAllocatedBlocks j.entry.blocks) data.length
      rw [g3, g4]
      refine ⟨rfl, rfl, ?_⟩
      unfold setEntry
      exact map_modify_of_invariant (fun n : DirNode => (n.addr, n.entry.name, n.entry.blocks))
        (fun n => { n with entry := n.entry.setSize data.length }) (fun x => rfl) _ _

theorem indexConsistent_congr (s t : VirtualFileSystem)
    (hd : namedNodes t = namedNodes s) (hi : t.directoryIndex = s.directoryIndex)
    (hn : t.nextAddr = s.nextAddr) (h : IndexConsistent s) : IndexConsistent t := by
  unfold IndexConsistent at *
  rw [hd, hi, hn]
  exact h

theorem indexCount_eq_false_iff (s : VirtualFileSystem) (name : String) :
    indexCount s name = false ↔ name ∉ s.directoryIndex.map Prod.fst := by
  unfold indexCount
  simp only [List.any_eq_false, beq_iff_eq, List.mem_map, not_exists, not_and]

theorem indexErase_eq_self (idx : List (String × Nat)) (name : String)
    (h : name ∉ idx.map Prod.fst) : idx.filter (fun kv => kv.1 != name) = idx := by
  rw [List.filter_eq_self]
  intro kv hkv
  simp only [bne_iff_ne, ne_eq]
  intro hk
  exact h (List.mem_map.mpr ⟨kv, hkv, hk⟩)

theorem store_consistent (s : VirtualFileSystem) (name : String) (data : List Byte)
    (ok : Message) (h : IndexConsistent s) : IndexConsistent (s.store name data ok).2 := by
  cases hc : indexCount s name with
  | true => rw [store_of_exists s name data ok hc]; exact h
  | false =>
    by_cases he : (s.allocateBlocks data.length).1 = []
    · rw [store_of_empty_alloc s name data ok hc he]
      obtain ⟨_, h2, h3, h4⟩ := allocateBlocks_frame s data.length
      exact indexConsistent_congr s _ (by unfold namedNodes; rw [h2]) h3 h4 h
    · rw [store_of_alloc s name data ok hc he]
      have hkey : name ∉ s.directoryIndex.map Prod.fst := (indexCount_eq_false_iff s name).mp hc
      obtain ⟨h1, h2, h3, h4, h5⟩ := h
      have hname : name ∉ (namedNodes s).map Prod.fst := by
        intro hm
        obtain ⟨x, hx, hxn⟩ := List.mem_map.mp hm
        exact hkey (List.mem_map.mpr ⟨x, (h5 x).mpr hx, hxn⟩)
      have haddr : s.nextAddr ∉ (namedNodes s).map Prod.snd := by
        intro hm
        obtain ⟨x, hx, hxn⟩ := List.mem_map.mp hm
        have := h3 x hx
        omega
      unfold IndexConsistent
      simp only [namedNodes, indexSet, List.map_append, List.map_cons, List.map_nil]
      rw [indexErase_eq_self _ _ hkey]
      refine ⟨?_, ?_, ?_, ?_, ?_⟩
      · rw [List.nodup_append]
        refine ⟨h1, List.nodup_singleton _, ?_⟩
        intro a ha hb
        rw [List.mem_singleton] at hb
        exact hname (hb ▸ ha)
      · rw [List.nodup_append]
        refine ⟨h2, List.nodup_singleton _, ?_⟩
        intro a ha hb
        rw [List.mem_singleton] at hb
        exact haddr (hb ▸ ha)
      · intro x hx
        rcases List.mem_append.mp hx with hx | hx
        · have := h3 x hx; omega
        · rw [List.mem_singleton] at hx; rw [hx]; exact Nat.lt_succ_self _
      · exact List.nodup_cons.mpr ⟨hkey, h4⟩
      · intro x
        simp only [List.mem_cons, List.mem_append, List.mem_singleton, List.not_mem_nil,
          or_false]
        rw [h5 x]
        exact or_comm

theorem modifyFile_consistent (s : VirtualFileSystem) (p : Nat) (data : List Byte)
    (h : IndexConsistent s) : IndexConsistent (s.modifyFile p data).2 := by
  obtain ⟨h1, h2, h3⟩ := modifyFile_frame s p data
  refine indexConsistent_congr s _ ?_ h1 h2 h
  unfold namedNodes
  have := congrArg (List.map (fun t : Nat × String × List Nat => (t.2.1, t.1))) h3
  simpa [List.map_map] using this

theorem deleteFile_consistent (s : VirtualFileSystem) (p : Nat)
    (h : IndexConsistent s) : IndexConsistent (s.deleteFile p).2 := by
  rcases deleteFile_cases s p with hc | hc | ⟨j, hj⟩
  · rw [hc]; exact h
  · rw [hc]; exact h
  · rw [deleteFile_of_valid s p j hj]
    generalize indexOfPosition p = i at hj ⊢
    have hlt := get?_lt_of_eq_some _ _ _ hj
    obtain ⟨h1, h2, h3, h4, h5⟩ := h
    have hP : namedNodes
        { s with
          freedBlocks := pushAll s.freedBlocks j.entry.blocks
          directoryIndex := indexErase s.directoryIndex j.entry.name
          directory := s.directory.eraseIdx (i) }
        = (namedNodes s).eraseIdx (i) := by
      unfold namedNodes
      simp only [List.eraseIdx_eq_take_drop_succ, List.map_append, List.map_take, List.map_drop]
    have hlen : i < (namedNodes s).length := by
      unfold namedNodes; rw [List.length_map]; exact hlt
    have hPi : (namedNodes s)[i] = (j.entry.name, j.addr) := by
      unfold namedNodes
      rw [List.getElem_map]
      have : s.directory[i] = j := by
        have h2 := List.get?_eq_get hlt
        rw [hj] at h2
        simpa using h2.symm
      rw [this]
    unfold IndexConsistent
    rw [hP]
    simp only [indexErase]
    refine ⟨?_, ?_, ?_, ?_, ?_⟩
    · exact h1.sublist ((List.eraseIdx_sublist _ _).map _)
    · exact h2.sublist ((List.eraseIdx_sublist _ _).map _)
    · intro x hx; exact h3 x (List.mem_of_mem_eraseIdx hx)
    · exact h4.sublist ((List.filter_sublist _).map _)
    · intro x
      rw [List.mem_filter, List.mem_eraseIdx_iff_getElem, h5 x]
      simp only [bne_iff_ne, ne_eq, decide_eq_true_eq]
      constructor
      · rintro ⟨hx, hne⟩
        obtain ⟨k, hk, hkx⟩ := List.getElem_of_mem hx
        refine ⟨k, hk, ?_, hkx⟩
        intro hki
        subst hki
        rw [hPi] at hkx
        exact hne (hkx ▸ rfl)
      · rintro ⟨k, hk, hki, hkx⟩
        refine ⟨hkx ▸ List.getElem_mem _, ?_⟩
        intro hname
        apply hki
        have hkm : k < ((namedNodes s).map Prod.fst).length := by
          rw [List.length_map]; exact hk
        have him : i < ((namedNodes s).map Prod.fst).length := by
          rw [List.length_map]; exact hlen
        have hk1 : ((namedNodes s).map Prod.fst)[k] = ((namedNodes s).map Prod.fst)[i] := by
          rw [List.getElem_map, List.getElem_map, hkx, hPi]
          exact hname
        exact (List.Nodup.getElem_inj_iff h1).mp hk1

/-- In every reachable state the directory and its name index agree. -/
theorem reachable_consistent (s : VirtualFileSystem) (h : Reachable s) : IndexConsistent s := by
  induction h with
  | init =>
    unfold IndexConsistent namedNodes init
    simp
  | step s op _ ih =>
    cases op with
    | createFile name data =>
      show IndexConsistent (s.createFile name data).2
      unfold createFile
      split
      · exact ih
      · exact store_consistent s name data _ ih
    | copyFromWindows path file =>
      show IndexConsistent (s.copyFromWindows path file).2
      unfold copyFromWindows
      split
      · exact ih
      · cases file with
        | none => exact ih
        | some data => exact store_consistent s _ data _ ih
    | modifyFile p data => exact modifyFile_consistent s p data ih
    | deleteFile p => exact deleteFile_consistent s p ih

/-! ## The threshold is checked before the allocation -/

theorem allocateBlocks_length_of_enough (s : VirtualFileSystem) (n : Nat)
    (h : blocksFor n ≤ s.freedBlocks.length + s.freeBlocks.length) :
    (s.allocateBlocks n).1.length = blocksFor n ∧
    (s.allocateBlocks n).2.freeBlocks.length + (s.allocateBlocks n).2.freedBlocks.length
        + blocksFor n = s.freeBlocks.length + s.freedBlocks.length := by
  rw [allocateBlocks_of_enough s n h]
  simp only [List.length_append, List.length_take, List.length_drop]
  omega

theorem blocksFor_pos (n : Nat) (h : 1 ≤ n) : 1 ≤ blocksFor n := by
  unfold blocksFor BLOCK_SIZE
  omega

theorem allocateBlocks_ne_nil (s : VirtualFileSystem) (n : Nat) (hn : 1 ≤ n)
    (h : blocksFor n ≤ s.freedBlocks.length + s.freeBlocks.length) :
    (s.allocateBlocks n).1 ≠ [] := by
  intro he
  have h1 := (allocateBlocks_length_of_enough s n h).1
  rw [he] at h1
  have := blocksFor_pos n hn
  simp only [List.length_nil] at h1
  omega

theorem createFile_of_fits (s : VirtualFileSystem) (name : String) (data : List Byte)
    (hfull : ¬ diskFull s) (hnew : indexCount s name = false) (hne : data ≠ [])
    (hfit : blocksFor data.length ≤ s.freedBlocks.length + s.freeBlocks.length) :
    s.createFile name data
      = (Message.created,
          { disk := writeLoop data (s.allocateBlocks data.length).1 0 s.disk
            freeBlocks := (s.allocateBlocks data.length).2.freeBlocks
            freedBlocks := (s.allocateBlocks data.length).2.freedBlocks
            directory := s.directory
              ++ [⟨s.nextAddr, ⟨name, (s.allocateBlocks data.length).1, data.length⟩⟩]
            directoryIndex := indexSet s.directoryIndex name s.nextAddr
            nextAddr := s.nextAddr + 1 }) := by
  have hpos : 1 ≤ data.length := by
    cases data with
    | nil => exact absurd rfl hne
    | cons a t => simp
  unfold createFile
  rw [if_neg hfull]
  exact store_of_alloc s name data _ hnew (allocateBlocks_ne_nil s _ hpos hfit)

theorem thresholdContent_length : thresholdContent.length = 6711296 := by
  unfold thresholdContent
  rw [List.length_replicate]
  decide

theorem thresholdContent_ne_nil : thresholdContent ≠ [] := by
  intro h
  have := thresholdContent_length
  rw [h] at this
  cases this

theorem init_pools_length : init.freedBlocks.length + init.freeBlocks.length = 8192 := by
  rw [init_freeBlocks, init_freedBlocks, List.length_range', blockCount_eq]
  rfl

theorem not_diskFull_init : ¬ diskFull init := by
  rw [diskFull_iff]
  have h1 : init.directory.length = 0 := rfl
  have h2 : usedSpace init = 0 := by
    rw [usedSpace_of_le init (by
      have := init_pools_length; rw [blockCount_eq]; omega)]
    have := init_pools_length
    unfold DATA_SPACE_SIZE BLOCK_SIZE
    omega
  rw [h1, h2]
  decide

/-- The state after a file that needs 6554 blocks is created on the fresh
system. -/
theorem createFile_thresholdContent :
    init.createFile "a" thresholdContent
      = (Message.created,
          { disk := writeLoop thresholdContent
              (init.allocateBlocks thresholdContent.length).1 0 init.disk
            freeBlocks := (init.allocateBlocks thresholdContent.length).2.freeBlocks
            freedBlocks := (init.allocateBlocks thresholdContent.length).2.freedBlocks
            directory := init.directory
              ++ [⟨init.nextAddr,
                  ⟨"a", (init.allocateBlocks thresholdContent.length).1,
                    thresholdContent.length⟩⟩]
            directoryIndex := indexSet init.directoryIndex "a" init.nextAddr
            nextAddr := init.nextAddr + 1 }) :=
  createFile_of_fits init "a" thresholdContent not_diskFull_init rfl thresholdContent_ne_nil
    (by rw [thresholdContent_length, init_pools_length]; decide)

theorem usedSpace_mk_of_le (d : Nat → Byte) (f fd : List Nat) (dir : List DirNode)
    (idx : List (String × Nat)) (n : Nat) (h : f.length + fd.length ≤ blockCount) :
    usedSpace ⟨d, f, fd, dir, idx, n⟩
      = DATA_SPACE_SIZE - (f.length + fd.length) * BLOCK_SIZE :=
  usedSpace_of_le ⟨d, f, fd, dir, idx, n⟩ h

theorem state_after_thresholdContent :
    (init.createFile "a" thresholdContent).2
      = { disk := writeLoop thresholdContent
            (init.allocateBlocks thresholdContent.length).1 0 init.disk
          freeBlocks := (init.allocateBlocks thresholdContent.length).2.freeBlocks
          freedBlocks := (init.allocateBlocks thresholdContent.length).2.freedBlocks
          directory := init.directory
            ++ [⟨init.nextAddr,
                ⟨"a", (init.allocateBlocks thresholdContent.length).1,
                  thresholdContent.length⟩⟩]
          directoryIndex := indexSet init.directoryIndex "a" init.nextAddr
          nextAddr := init.nextAddr + 1 } := by
  rw [createFile_thresholdContent]

theorem pools_after_thresholdContent :
    (init.allocateBlocks thresholdContent.length).2.freeBlocks.length
      + (init.allocateBlocks thresholdContent.length).2.freedBlocks.length = 1638 := by
  have hc := (allocateBlocks_length_of_enough init thresholdContent.length
    (by rw [thresholdContent_length, init_pools_length]; decide)).2
  have hb : blocksFor thresholdContent.length = 6554 := by
    rw [thresholdContent_length]; decide
  have hp := init_pools_length
  rw [hb] at hc
  omega

theorem usage_after_thresholdContent :
    usagePercent (init.createFile "a" thresholdContent).2 > 0.8 := by
  rw [state_after_thresholdContent, usagePercent_gt_iff,
    usedSpace_mk_of_le _ _ _ _ _ _ (by rw [pools_after_thresholdContent, blockCount_eq]; decide),
    pools_after_thresholdContent]
  decide

theorem usagePercent_init_le : usagePercent init ≤ 0.8 :=
  not_lt.mp (fun h => not_diskFull_init (Or.inr h))

/-- C17 (the usage threshold is soft): on the fresh system, where usage is 0,
creating a file that needs 6554 blocks succeeds and leaves usage above 0.8;
and whenever the directory is below its maximum, the name is new and usage is
at most 0.8, `createFile` and `copyFromWindows` succeed for every non-empty
content that fits in the free blocks, taking `ceil(len / BLOCK_SIZE)` indices
from the pools whatever usage results. -/
theorem threshold_is_soft :
    (Reachable init ∧ usagePercent init ≤ 0.8 ∧
      (init.createFile "a" thresholdContent).1 = Message.created ∧
      usagePercent (init.createFile "a" thresholdContent).2 > 0.8) ∧
    (∀ (s : VirtualFileSystem) (name : String) (data : List Byte),
      s.directory.length < MAX_DIRECTORY_ENTRIES → indexCount s name = false →
      usagePercent s ≤ 0.8 → data ≠ [] →
      ceilBlocks data.length ≤ s.freedBlocks.length + s.freeBlocks.length →
        (s.createFile name data).1 = Message.created ∧
        (s.createFile name data).2.freeBlocks.length
            + (s.createFile name data).2.freedBlocks.length + ceilBlocks data.length
          = s.freeBlocks.length + s.freedBlocks.length) ∧
    (∀ (s : VirtualFileSystem) (path : String) (data : List Byte),
      s.directory.length < MAX_DIRECTORY_ENTRIES → indexCount s (fileNameOf path) = false →
      usagePercent s ≤ 0.8 → data ≠ [] →
      ceilBlocks data.length ≤ s.freedBlocks.length + s.freeBlocks.length →
        (s.copyFromWindows path (some data)).1 = Message.copiedIn ∧
        (s.copyFromWindows path (some data)).2.freeBlocks.length
            + (s.copyFromWindows path (some data)).2.freedBlocks.length
            + ceilBlocks data.length
          = s.freeBlocks.length + s.freedBlocks.length) := by
  refine ⟨⟨Reachable.init, usagePercent_init_le, ?_, usage_after_thresholdContent⟩, ?_, ?_⟩
  · rw [createFile_thresholdContent]
  · intro s name data hlen hnew huse hne hfit
    have hfull : ¬ diskFull s := by
      intro hf
      rcases hf with hf | hf
      · omega
      · exact absurd hf (not_lt.mpr huse)
    rw [← blocksFor_eq_ceilBlocks] at hfit ⊢
    rw [createFile_of_fits s name data hfull hnew hne hfit]
    exact ⟨rfl, (allocateBlocks_length_of_enough s data.length hfit).2⟩
  · intro s path data hlen hnew huse hne hfit
    have hfull : ¬ diskFull s := by
      intro hf
      rcases hf with hf | hf
      · omega
      · exact absurd hf (not_lt.mpr huse)
    have hpos : 1 ≤ data.length := by
      cases data with
      | nil => exact absurd rfl hne
      | cons a t => simp
    rw [← blocksFor_eq_ceilBlocks] at hfit ⊢
    unfold copyFromWindows
    rw [if_neg hfull]
    simp only []
    rw [store_of_alloc s _ data _ hnew (allocateBlocks_ne_nil s _ hpos hfit)]
    exact ⟨rfl, (allocateBlocks_length_of_enough s data.length hfit).2⟩

/-- Witness for C17: a three-byte file on the fresh system. -/
theorem threshold_is_soft_witness :
    init.directory.length < MAX_DIRECTORY_ENTRIES ∧ indexCount init "a" = false ∧
    usagePercent init ≤ 0.8 ∧ ([1, 2, 3] : List Byte) ≠ [] ∧
    ceilBlocks ([1, 2, 3] : List Byte).length
      ≤ init.freedBlocks.length + init.freeBlocks.length ∧
    (init.createFile "a" [1, 2, 3]).1 = Message.created :=
  have h1 : init.directory.length < MAX_DIRECTORY_ENTRIES := by decide
  have h5 : ceilBlocks ([1, 2, 3] : List Byte).length
      ≤ init.freedBlocks.length + init.freeBlocks.length := by
    rw [← blocksFor_eq_ceilBlocks, init_pools_length]; decide
  ⟨h1, rfl, usagePercent_init_le, by decide, h5,
    (threshold_is_soft.2.1 init "a" [1, 2, 3] h1 rfl usagePercent_init_le (by decide) h5).1⟩

theorem names_eq_map_fst (s : VirtualFileSystem) :
    names s = (namedNodes s).map Prod.fst := by
  unfold names entries namedNodes
  simp [List.map_map, Function.comp_def]

theorem indexCount_indexSet (d : Nat → Byte) (f fd : List Nat) (dir : List DirNode)
    (idx : List (String × Nat)) (n : Nat) (name : String) (a : Nat) :
    indexCount ⟨d, f, fd, dir, indexSet idx name a, n⟩ name = true := by
  simp [indexCount, indexSet]

theorem createFile_of_diskFull (s : VirtualFileSystem) (name : String) (data : List Byte)
    (h : diskFull s) : s.createFile name data = (Message.diskFull, s) := by
  unfold createFile
  rw [if_pos h]

/-- C13 (name uniqueness): a create request with a name that is already in the
name index is answered "File exists" (by `copyFromWindows`: "Exists.") and
returns the state it was given.  Both functions ask for the name, or the path
it is taken from, only after the capacity guard let the request through (lines
162 to 170 and 237 to 245): a request carries a name only where `diskFull`
does not hold, which is the first hypothesis.  In every reachable state the
entry names are pairwise distinct, the keys of the name index are exactly the
names of the directory entries, and every key is stored with the address of
the one node that carries that name. -/
theorem name_uniqueness :
    (∀ (s : VirtualFileSystem) (name : String) (data : List Byte),
      ¬ diskFull s → indexCount s name = true →
        s.createFile name data = (Message.fileExists, s)) ∧
    (∀ (s : VirtualFileSystem) (path : String) (data : List Byte),
      ¬ diskFull s → indexCount s (fileNameOf path) = true →
        s.copyFromWindows path (some data) = (Message.fileExists, s)) ∧
    (∀ s : VirtualFileSystem, Reachable s →
      (names s).Nodup ∧
      (∀ k, k ∈ s.directoryIndex.map Prod.fst ↔ k ∈ names s) ∧
      (∀ k a, (k, a) ∈ s.directoryIndex →
        ∃ n ∈ s.directory, n.entry.name = k ∧ n.addr = a ∧
          ∀ m ∈ s.directory, m.addr = a → m = n)) := by
  refine ⟨?_, ?_, ?_⟩
  · intro s name data hf h
    unfold createFile
    rw [if_neg hf, store_of_exists s name data _ h]
  · intro s path data hf h
    unfold copyFromWindows
    rw [if_neg hf]
    simp only []
    rw [store_of_exists s _ data _ h]
  · intro s hs
    obtain ⟨h1, h2, _, _, h5⟩ := reachable_consistent s hs
    rw [names_eq_map_fst]
    refine ⟨h1, ?_, ?_⟩
    · intro k
      simp only [List.mem_map]
      constructor
      · rintro ⟨x, hx, rfl⟩; exact ⟨x, (h5 x).mp hx, rfl⟩
      · rintro ⟨x, hx, rfl⟩; exact ⟨x, (h5 x).mpr hx, rfl⟩
    · intro k a hka
      have hP := (h5 (k, a)).mp hka
      unfold namedNodes at hP h2
      obtain ⟨n, hn, hnk⟩ := List.mem_map.mp hP
      have hname : n.entry.name = k := congrArg Prod.fst hnk
      have haddr : n.addr = a := congrArg Prod.snd hnk
      refine ⟨n, hn, hname, haddr, ?_⟩
      intro m hm hma
      rw [List.map_map] at h2
      exact List.inj_on_of_nodup_map h2 hm hn (by simp only [Function.comp]; omega)

/-- Witness for C13: the name "a" once a file "a" exists. -/
theorem name_uniqueness_witness :
    ¬ diskFull (init.createFile "a" [1]).2 ∧
    indexCount (init.createFile "a" [1]).2 "a" = true ∧
    (init.createFile "a" [1]).2.createFile "a" [2]
      = (Message.fileExists, (init.createFile "a" [1]).2) :=
  have h : indexCount (init.createFile "a" [1]).2 "a" = true := by decide!
  have hf : ¬ diskFull (init.createFile "a" [1]).2 := by decide!
  ⟨hf, h, name_uniqueness.1 _ "a" [2] hf h⟩

/-! ## Positions -/

theorem indexOfPosition_of_pos (p : Nat) (h1 : 1 ≤ p) (h2 : p ≤ 2 ^ 31) :
    indexOfPosition p = p - 1 := by
  unfold indexOfPosition SIZE_MOD INT_MOD
  simp only []
  have e1 : (p % 2 ^ 64 + 2 ^ 64 - 1) % 2 ^ 64 = p - 1 := by omega
  rw [e1]
  have e2 : (p - 1) % 2 ^ 32 = p - 1 := by omega
  rw [e2]
  have e3 : p - 1 < 2 ^ 32 / 2 := by omega
  rw [if_pos e3]

/-- For a position below `2 ^ 32` outside `1 .. n` the computed index is not
below `n`, for every `n` up to `2 ^ 31`. -/
theorem indexOfPosition_of_outside (p n : Nat) (hp : p < 2 ^ 32) (hn : n ≤ 2 ^ 31)
    (hout : ¬ (1 ≤ p ∧ p ≤ n)) : n ≤ indexOfPosition p := by
  unfold indexOfPosition SIZE_MOD INT_MOD
  simp only []
  by_cases h0 : p = 0
  · subst h0
    have e1 : (0 % 2 ^ 64 + 2 ^ 64 - 1) % 2 ^ 64 = 2 ^ 64 - 1 := by omega
    rw [e1]
    have e2 : (2 ^ 64 - 1) % 2 ^ 32 = 2 ^ 32 - 1 := by omega
    rw [e2]
    have e3 : ¬ (2 ^ 32 - 1 < 2 ^ 32 / 2) := by omega
    rw [if_neg e3]
    omega
  · have e1 : (p % 2 ^ 64 + 2 ^ 64 - 1) % 2 ^ 64 = p - 1 := by omega
    rw [e1]
    have e2 : (p - 1) % 2 ^ 32 = p - 1 := by omega
    rw [e2]
    split <;> omega

theorem reachable_directory_length (s : VirtualFileSystem) (h : Reachable s) :
    s.directory.length ≤ MAX_DIRECTORY_ENTRIES := by
  induction h with
  | init => simp [init]
  | step s op _ ih =>
    cases op with
    | createFile name data => exact createFile_directory_length s name data ih
    | copyFromWindows path file => exact copyFromWindows_directory_length s path file ih
    | modifyFile p data =>
      show (s.modifyFile p data).2.directory.length ≤ _
      rw [modifyFile_directory_length]; exact ih
    | deleteFile p => exact le_trans (deleteFile_directory_length s p) ih

/-- C14 (delete releases and removes): in a state with `n` entries, `n` at most
`2 ^ 31` (every reachable state has at most 2097), and for a position `p` with
`1 ≤ p ≤ n`, `deleteFile` pushes the block indices of the `p`-th entry onto
the LIFO pool one by one in list order (so the last one ends on top), leaves
the FIFO pool and the disk as they were, removes the pairs with that entry's
name from the name index and keeps the others, and leaves the directory with
the `p`-th node removed, `n - 1` nodes in the same order. -/
theorem deleteFile_releases_and_removes :
    (∀ (s : VirtualFileSystem) (p : Nat),
      s.directory.length ≤ 2 ^ 31 → 1 ≤ p → p ≤ s.directory.length →
    ∃ j, s.directory.get? (p - 1) = some j ∧
      (s.deleteFile p).1 = Message.deleted ∧
      (s.deleteFile p).2.freedBlocks = pushAll s.freedBlocks j.entry.blocks ∧
      (s.deleteFile p).2.freedBlocks = j.entry.blocks.reverse ++ s.freedBlocks ∧
      (s.deleteFile p).2.freeBlocks = s.freeBlocks ∧
      (s.deleteFile p).2.disk = s.disk ∧
      (s.deleteFile p).2.directoryIndex
        = s.directoryIndex.filter (fun kv => kv.1 != j.entry.name) ∧
      (∀ a, (j.entry.name, a) ∉ (s.deleteFile p).2.directoryIndex) ∧
      (s.deleteFile p).2.directory = s.directory.eraseIdx (p - 1) ∧
      (s.deleteFile p).2.directory = s.directory.take (p - 1) ++ s.directory.drop p ∧
      (s.deleteFile p).2.directory.length = s.directory.length - 1) ∧
    (∀ s : VirtualFileSystem, Reachable s → s.directory.length ≤ 2 ^ 31) := by
  refine ⟨?_, fun s hs => le_trans (reachable_directory_length s hs) (by decide)⟩
  intro s p hn h1 h2
  have hidx : indexOfPosition p = p - 1 := indexOfPosition_of_pos p h1 (by omega)
  have hlt : p - 1 < s.directory.length := by omega
  refine ⟨s.directory[p - 1], ?_⟩
  have hj : s.directory.get? (indexOfPosition p) = some s.directory[p - 1] := by
    rw [hidx]; exact List.get?_eq_get hlt
  have hj2 : s.directory.get? (p - 1) = some s.directory[p - 1] := List.get?_eq_get hlt
  rw [deleteFile_of_valid s p _ hj, hidx]
  refine ⟨hj2, rfl, rfl, pushAll_eq _ _, rfl, rfl, rfl, ?_, rfl, ?_, ?_⟩
  · intro a ha
    simp only [indexErase, List.mem_filter, bne_self_eq_false, Bool.false_eq_true,
      and_false] at ha
  · have e : p - 1 + 1 = p := by omega
    simp only [List.eraseIdx_eq_take_drop_succ, e]
  · simp only []
    rw [List.length_eraseIdx, if_pos hlt]

/-- Witness for C14: deleting the first of two files. -/
theorem deleteFile_releases_and_removes_witness :
    (run init [Op.createFile "a" [1], Op.createFile "b" [2]]).directory.length ≤ 2 ^ 31 ∧
    1 ≤ 1 ∧ 1 ≤ (run init [Op.createFile "a" [1], Op.createFile "b" [2]]).directory.length ∧
    ∃ j, (run init [Op.createFile "a" [1], Op.createFile "b" [2]]).directory.get? (1 - 1)
        = some j ∧
      ((run init [Op.createFile "a" [1], Op.createFile "b" [2]]).deleteFile 1).2.freedBlocks
        = j.entry.blocks.reverse
          ++ (run init [Op.createFile "a" [1], Op.createFile "b" [2]]).freedBlocks :=
  have h : (run init [Op.createFile "a" [1], Op.createFile "b" [2]]).directory.length ≤ 2 ^ 31
      ∧ 1 ≤ (run init [Op.createFile "a" [1], Op.createFile "b" [2]]).directory.length := by
    decide!
  ⟨h.1, Nat.le_refl 1, h.2,
    (deleteFile_releases_and_removes.1 _ 1 h.1 (Nat.le_refl 1) h.2).elim
      (fun j hj => ⟨j, hj.1, hj.2.2.2.1⟩)⟩

theorem isEmpty_eq_false_of_lt {α : Type} (l : List α) (i : Nat) (h : i < l.length) :
    l.isEmpty = false := by
  cases l with
  | nil => cases h
  | cons a t => rfl

/-- Positions that the 32-bit `int` keeps apart are checked as intended: in a
state with at most `2 ^ 31` entries, a position below `2 ^ 32` outside `1 .. n`
is answered with "No files." or "Invalid." and the state is returned as it
was; a position in `1 .. n` selects the node at list index `p - 1`. -/
theorem small_positions_checked (s : VirtualFileSystem) (p : Nat)
    (hn : s.directory.length ≤ 2 ^ 31) (hp : p < 2 ^ 32) :
    (¬ (1 ≤ p ∧ p ≤ s.directory.length) →
      (∀ data, (s.modifyFile p data).2 = s ∧
        ((s.modifyFile p data).1 = Message.noFiles
          ∨ (s.modifyFile p data).1 = Message.invalid)) ∧
      ((s.deleteFile p).2 = s ∧
        ((s.deleteFile p).1 = Message.noFiles ∨ (s.deleteFile p).1 = Message.invalid)) ∧
      ((s.listAndView p).2 = s ∧
        ((s.listAndView p).1 = Message.noFiles ∨ (s.listAndView p).1 = Message.invalid))) ∧
    (1 ≤ p ∧ p ≤ s.directory.length →
      ∃ j, s.directory.get? (p - 1) = some j ∧
        s.directory.get? (indexOfPosition p) = some j ∧
        s.listAndView p = (Message.viewed j.entry.name (s.readFromDisk j.entry), s)) := by
  constructor
  · intro hout
    have hge := indexOfPosition_of_outside p s.directory.length hp hn hout
    have hge' : indexOfPosition p ≥ s.directory.length := hge
    refine ⟨?_, ?_, ?_⟩
    · intro data
      unfold modifyFile
      split
      · exact ⟨rfl, Or.inl rfl⟩
      · simp only []
        rw [if_pos hge']
        exact ⟨rfl, Or.inr rfl⟩
    · unfold deleteFile
      split
      · exact ⟨rfl, Or.inl rfl⟩
      · simp only []
        rw [if_pos hge']
        exact ⟨rfl, Or.inr rfl⟩
    · unfold listAndView
      split
      · exact ⟨rfl, Or.inl rfl⟩
      · simp only []
        rw [if_pos hge']
        exact ⟨rfl, Or.inr rfl⟩
  · rintro ⟨h1, h2⟩
    have hidx : indexOfPosition p = p - 1 := indexOfPosition_of_pos p h1 (by omega)
    have hlt : p - 1 < s.directory.length := by omega
    have hj2 : s.directory.get? (p - 1) = some s.directory[p - 1] := List.get?_eq_get hlt
    refine ⟨s.directory[p - 1], hj2, by rw [hidx]; exact hj2, ?_⟩
    unfold listAndView
    have hne := isEmpty_eq_false_of_lt _ _ hlt
    have hge : ¬ (p - 1 ≥ s.directory.length) := by omega
    simp only [hne, hidx, hj2, hge, Bool.false_eq_true, if_false, FileEntry.getName]

/-- C15 (an invalid position is rejected) fails for positions that the
narrowing to `int` folds back into range.  With one file in the directory the
position `2 ^ 32 + 1` is not in `1 .. 1`, yet the computed index is 0:
`listAndView` shows the file, `modifyFile` modifies it, and `deleteFile`
deletes it. -/
theorem large_position_selects_first_entry :
    indexOfPosition 4294967297 = 0 ∧
    Reachable (run init [Op.createFile "a" [5]]) ∧
    entries (run init [Op.createFile "a" [5]]) = [⟨"a", [0], 1⟩] ∧
    ¬ (1 ≤ 4294967297 ∧ 4294967297 ≤ (run init [Op.createFile "a" [5]]).directory.length) ∧
    ((run init [Op.createFile "a" [5]]).listAndView 4294967297).1 = Message.viewed "a" [5] ∧
    ((run init [Op.createFile "a" [5]]).modifyFile 4294967297 [6, 7]).1 = Message.modified ∧
    entries ((run init [Op.createFile "a" [5]]).modifyFile 4294967297 [6, 7]).2
      = [⟨"a", [0], 2⟩] ∧
    ((run init [Op.createFile "a" [5]]).deleteFile 4294967297).1 = Message.deleted ∧
    entries ((run init [Op.createFile "a" [5]]).deleteFile 4294967297).2 = [] := by
  have hclosed :
      entries (run init [Op.createFile "a" [5]]) = [⟨"a", [0], 1⟩] ∧
      ¬ (1 ≤ 4294967297 ∧
        4294967297 ≤ (run init [Op.createFile "a" [5]]).directory.length) ∧
      ((run init [Op.createFile "a" [5]]).listAndView 4294967297).1
        = Message.viewed "a" [5] ∧
      ((run init [Op.createFile "a" [5]]).modifyFile 4294967297 [6, 7]).1
        = Message.modified ∧
      entries ((run init [Op.createFile "a" [5]]).modifyFile 4294967297 [6, 7]).2
        = [⟨"a", [0], 2⟩] ∧
      ((run init [Op.createFile "a" [5]]).deleteFile 4294967297).1 = Message.deleted ∧
      entries ((run init [Op.createFile "a" [5]]).deleteFile 4294967297).2 = [] := by decide!
  exact ⟨by decide, reachable_run _ _ Reachable.init, hclosed⟩

/-! ## Block accounting -/

theorem count_take_add_count_drop (a : Nat) (k : Nat) (l : List Nat) :
    (l.take k).count a + (l.drop k).count a = l.count a := by
  rw [← List.count_append, List.take_append_drop]

/-- The indices handed out by `allocateBlocks` and the indices left in the two
pools are, together, the indices the pools held before. -/
theorem allocateBlocks_perm (s : VirtualFileSystem) (n : Nat) :
    List.Perm ((s.allocateBlocks n).1 ++ (s.allocateBlocks n).2.freeBlocks
        ++ (s.allocateBlocks n).2.freedBlocks)
      (s.freeBlocks ++ s.freedBlocks) := by
  rw [List.perm_iff_count]
  intro a
  by_cases hshort : s.freedBlocks.length + s.freeBlocks.length < blocksFor n
  · rw [allocateBlocks_of_short s n hshort]
    simp only [List.nil_append, List.count_reverse, List.count_append]
    omega
  · have hen : blocksFor n ≤ s.freedBlocks.length + s.freeBlocks.length := by omega
    rw [allocateBlocks_of_enough s n hen]
    simp only [List.count_append]
    have h1 := count_take_add_count_drop a (blocksFor n) s.freedBlocks
    have h2 := count_take_add_count_drop a (blocksFor n - s.freedBlocks.length) s.freeBlocks
    omega

theorem entries_append (dir : List DirNode) (n : DirNode) :
    (dir ++ [n]).map DirNode.entry = dir.map DirNode.entry ++ [n.entry] := by
  simp

/-- A create request keeps the indices: the state afterwards holds a
permutation of the indices it held before. -/
theorem store_perm (s : VirtualFileSystem) (name : String) (data : List Byte) (ok : Message) :
    List.Perm (allIndices (s.store name data ok).2) (allIndices s) := by
  cases hc : indexCount s name with
  | true => rw [store_of_exists s name data ok hc]
  | false =>
    have hp := allocateBlocks_perm s data.length
    obtain ⟨_, h2, _, _⟩ := allocateBlocks_frame s data.length
    rw [List.perm_iff_count] at hp ⊢
    intro a
    have hpa := hp a
    by_cases he : (s.allocateBlocks data.length).1 = []
    · rw [store_of_empty_alloc s name data ok hc he]
      rw [he] at hpa
      unfold allIndices entries
      rw [h2]
      simp only [List.count_append, List.nil_append] at hpa ⊢
      omega
    · rw [store_of_alloc s name data ok hc he]
      unfold allIndices entries
      simp only [List.count_append, List.map_append, List.map_cons, List.map_nil,
        List.flatMap_append, List.flatMap_cons, List.flatMap_nil, List.append_nil] at hpa ⊢
      omega

theorem createFile_perm (s : VirtualFileSystem) (name : String) (data : List Byte) :
    List.Perm (allIndices (s.createFile name data).2) (allIndices s) := by
  unfold createFile
  split
  · exact List.Perm.refl _
  · exact store_perm s name data _

theorem copyFromWindows_perm (s : VirtualFileSystem) (path : String)
    (file : Option (List Byte)) :
    List.Perm (allIndices (s.copyFromWindows path file).2) (allIndices s) := by
  unfold copyFromWindows
  split
  · exact List.Perm.refl _
  · cases file with
    | none => exact List.Perm.refl _
    | some data => exact store_perm s _ data _

theorem flatMap_eraseIdx_count (a : Nat) (l : List FileEntry) (i : Nat) (h : i < l.length) :
    ((l.eraseIdx i).flatMap FileEntry.blocks).count a + (l[i].blocks).count a
      = (l.flatMap FileEntry.blocks).count a := by
  induction l generalizing i with
  | nil => cases h
  | cons x t ih =>
    cases i with
    | zero =>
      simp only [List.eraseIdx_cons_zero, List.getElem_cons_zero, List.flatMap_cons,
        List.count_append]
      omega
    | succ k =>
      have := ih k (by simpa using h)
      simp only [List.eraseIdx_cons_succ, List.getElem_cons_succ, List.flatMap_cons,
        List.count_append]
      omega

/-- A delete request keeps the indices. -/
theorem deleteFile_perm (s : VirtualFileSystem) (p : Nat) :
    List.Perm (allIndices (s.deleteFile p).2) (allIndices s) := by
  rcases deleteFile_cases s p with hc | hc | ⟨j, hj⟩
  · rw [hc]
  · rw [hc]
  · rw [deleteFile_of_valid s p j hj]
    generalize indexOfPosition p = i at hj ⊢
    have hlt := get?_lt_of_eq_some _ _ _ hj
    have hji : s.directory[i] = j := by
      have h2 := List.get?_eq_get hlt
      rw [hj] at h2
      simpa using h2.symm
    rw [List.perm_iff_count]
    intro a
    unfold allIndices entries
    simp only [pushAll_eq, List.count_append, List.count_reverse]
    have hmap : (s.directory.eraseIdx i).map DirNode.entry
        = (s.directory.map DirNode.entry).eraseIdx i := by
      simp only [List.eraseIdx_eq_take_drop_succ, List.map_append, List.map_take, List.map_drop]
    rw [hmap]
    have hc := flatMap_eraseIdx_count a (s.directory.map DirNode.entry) i
      (by rw [List.length_map]; exact hlt)
    rw [List.getElem_map, hji] at hc
    omega

theorem allocateBlocks_pools_subset (s : VirtualFileSystem) (n : Nat) (b : Nat)
    (h : b ∈ (s.allocateBlocks n).2.freeBlocks ++ (s.allocateBlocks n).2.freedBlocks) :
    b ∈ s.freeBlocks ++ s.freedBlocks := by
  apply (allocateBlocks_perm s n).subset
  rw [List.append_assoc]
  exact List.mem_append_right _ h

theorem allocateBlocks_result_subset (s : VirtualFileSystem) (n : Nat) (b : Nat)
    (h : b ∈ (s.allocateBlocks n).1) : b ∈ s.freeBlocks ++ s.freedBlocks := by
  apply (allocateBlocks_perm s n).subset
  rw [List.append_assoc]
  exact List.mem_append_left _ h

theorem owned_of_frame (s t : VirtualFileSystem)
    (h : t.directory.map (fun n => (n.addr, n.entry.name, n.entry.blocks))
      = s.directory.map (fun n => (n.addr, n.entry.name, n.entry.blocks))) :
    (entries t).map FileEntry.blocks = (entries s).map FileEntry.blocks := by
  have := congrArg (List.map (fun x : Nat × String × List Nat => x.2.2)) h
  unfold entries
  simpa [List.map_map, Function.comp_def] using this

theorem flatMap_blocks_eq (l : List FileEntry) :
    l.flatMap FileEntry.blocks = (l.map FileEntry.blocks).flatten := by
  induction l with
  | nil => rfl
  | cons a t ih => simp [List.flatMap_cons, ih]

theorem mem_owned_of_get? (s : VirtualFileSystem) (i : Nat) (j : DirNode)
    (hj : s.directory.get? i = some j) (b : Nat) (hb : b ∈ j.entry.blocks) :
    b ∈ (entries s).flatMap FileEntry.blocks := by
  have hmem : j ∈ s.directory := List.get?_mem hj
  rw [List.mem_flatMap]
  exact ⟨j.entry, List.mem_map.mpr ⟨j, hmem, rfl⟩, hb⟩

/-- A modify request brings in no index: every index the state holds afterwards
was held before. -/
theorem modifyFile_subset (s : VirtualFileSystem) (p : Nat) (data : List Byte) (b : Nat)
    (h : b ∈ allIndices (s.modifyFile p data).2) : b ∈ allIndices s := by
  have hown := owned_of_frame s _ (modifyFile_frame s p data).2.2
  unfold allIndices at h ⊢
  rw [flatMap_blocks_eq, hown, ← flatMap_blocks_eq] at h
  rcases List.mem_append.mp h with hpool | hown2
  · rcases modifyFile_cases s p data with hc | hc | ⟨j, hj⟩
    · rw [hc] at hpool; exact List.mem_append_left _ hpool
    · rw [hc] at hpool; exact List.mem_append_left _ hpool
    · have hfree : ∀ x, x ∈ (s.freeAllocatedBlocks j.entry.blocks).freeBlocks
            ++ (s.freeAllocatedBlocks j.entry.blocks).freedBlocks →
          x ∈ s.freeBlocks ++ s.freedBlocks ++ (entries s).flatMap FileEntry.blocks := by
        intro x hx
        simp only [freeAllocatedBlocks, pushAll_eq, List.mem_append, List.mem_reverse] at hx
        rcases hx with hx | hx | hx
        · exact List.mem_append_left _ (List.mem_append_left _ hx)
        · exact List.mem_append_right _ (mem_owned_of_get? s _ j hj x hx)
        · exact List.mem_append_left _ (List.mem_append_right _ hx)
      rw [modifyFile_of_valid s p data j hj] at hpool
      split at hpool
      · simp only [writeToDisk] at hpool
        exact hfree b (allocateBlocks_pools_subset _ _ b (allocateBlocks_pools_subset _ _ b hpool))
      · simp only [writeToDisk] at hpool
        exact hfree b (allocateBlocks_pools_subset _ _ b hpool)
  · exact List.mem_append_right _ hown2

/-- In every reachable state every index held in a pool or in an entry came
from the initial FIFO pool. -/
theorem reachable_indices_lt (s : VirtualFileSystem) (h : Reachable s) :
    ∀ b ∈ allIndices s, b < blockCount := by
  induction h with
  | init =>
    intro b hb
    unfold allIndices entries at hb
    rw [init_freeBlocks, init_freedBlocks] at hb
    have hd : init.directory = [] := rfl
    rw [hd] at hb
    simp only [List.append_nil, List.map_nil, List.flatMap_nil, List.mem_range'_1] at hb
    omega
  | step s op _ ih =>
    intro b hb
    cases op with
    | createFile name data => exact ih b ((createFile_perm s name data).subset hb)
    | copyFromWindows path file => exact ih b ((copyFromWindows_perm s path file).subset hb)
    | modifyFile p data => exact ih b (modifyFile_subset s p data b hb)
    | deleteFile p => exact ih b ((deleteFile_perm s p).subset hb)

/-- A read depends only on the bytes inside the blocks of the entry. -/
theorem readLoop_congr (d1 d2 : Nat → Byte) (blocks : List Nat) (remaining : Nat)
    (out : List Byte) (h : ∀ b ∈ blocks, ∀ i, inBlock b i → d1 i = d2 i) :
    readLoop d1 blocks remaining out = readLoop d2 blocks remaining out := by
  induction blocks generalizing remaining out with
  | nil => rfl
  | cons b rest ih =>
    simp only [readLoop]
    have hb : diskBytes d1 (blockOffset b) (min BLOCK_SIZE remaining)
        = diskBytes d2 (blockOffset b) (min BLOCK_SIZE remaining) := by
      apply diskBytes_congr
      intro i hi1 hi2
      exact h b (List.mem_cons_self _ _) i
        ⟨hi1, lt_of_lt_of_le hi2 (by have := Nat.min_le_left BLOCK_SIZE remaining; omega)⟩
    rw [hb]
    exact ih _ _ (fun c hc => h c (List.mem_cons_of_mem _ hc))

/-- C16 (block confinement): `writeToDisk` changes no byte outside the ranges
`[blockOffset b, blockOffset b + BLOCK_SIZE)` of the blocks it is given and
nothing but the disk; for `b` below `blockCount` that range lies inside the
data zone and inside the `DISK_SIZE` bytes of the buffer; `readFromDisk`
depends only on the bytes inside the ranges of the entry's blocks; and in
every reachable state every index held in a pool or in an entry is below
`blockCount`. -/
theorem block_confinement :
    (∀ (s : VirtualFileSystem) (blocks : List Nat) (data : List Byte) (i : Nat),
      (∀ b ∈ blocks, ¬ inBlock b i) → (s.writeToDisk blocks data).disk i = s.disk i) ∧
    (∀ (s : VirtualFileSystem) (blocks : List Nat) (data : List Byte),
      (s.writeToDisk blocks data).freeBlocks = s.freeBlocks ∧
      (s.writeToDisk blocks data).freedBlocks = s.freedBlocks ∧
      (s.writeToDisk blocks data).directory = s.directory ∧
      (s.writeToDisk blocks data).directoryIndex = s.directoryIndex) ∧
    (∀ b i : Nat, b < blockCount → inBlock b i →
      DIRECTORY_SPACE_SIZE + METADATA_SPACE_SIZE ≤ i ∧
      i < DIRECTORY_SPACE_SIZE + METADATA_SPACE_SIZE + DATA_SPACE_SIZE ∧
      i < DISK_SIZE) ∧
    (∀ (s t : VirtualFileSystem) (f : FileEntry),
      (∀ b ∈ f.blocks, ∀ i, inBlock b i → s.disk i = t.disk i) →
        s.readFromDisk f = t.readFromDisk f) ∧
    (∀ s : VirtualFileSystem, Reachable s → ∀ b ∈ allIndices s, b < blockCount) := by
  refine ⟨?_, ?_, ?_, ?_, reachable_indices_lt⟩
  · intro s blocks data i h
    exact writeLoop_frame data blocks 0 s.disk i h
  · intro s blocks data
    exact ⟨rfl, rfl, rfl, rfl⟩
  · intro b i hb hi
    unfold inBlock blockOffset at hi
    unfold blockCount DATA_SPACE_SIZE DIRECTORY_SPACE_SIZE METADATA_SPACE_SIZE BLOCK_SIZE
      DISK_SIZE at *
    omega
  · intro s t f h
    exact readLoop_congr s.disk t.disk f.blocks f.size [] h

/-- Witness for C16: the last byte of the last block, and a write into block 3
seen from a byte of block 4. -/
theorem block_confinement_witness :
    8191 < blockCount ∧ inBlock 8191 10485759 ∧ 10485759 < DISK_SIZE ∧
    (∀ b ∈ [3], ¬ inBlock b (blockOffset 4)) ∧
    (init.writeToDisk [3] [1, 2]).disk (blockOffset 4) = init.disk (blockOffset 4) :=
  have h1 : 8191 < blockCount := by decide
  have h2 : inBlock 8191 10485759 := by
    unfold inBlock blockOffset DIRECTORY_SPACE_SIZE METADATA_SPACE_SIZE BLOCK_SIZE; decide
  have h3 : ∀ b ∈ [3], ¬ inBlock b (blockOffset 4) := by
    intro b hb
    rw [List.mem_singleton] at hb
    subst hb
    unfold inBlock blockOffset DIRECTORY_SPACE_SIZE METADATA_SPACE_SIZE BLOCK_SIZE; decide
  ⟨h1, h2, (block_confinement.2.2.1 8191 10485759 h1 h2).2.2, h3,
    block_confinement.1 init [3] [1, 2] (blockOffset 4) h3⟩

/-! ## The restore branch of `modifyFile` -/

theorem allocateBlocks_zero (s : VirtualFileSystem) : s.allocateBlocks 0 = ([], s) := by
  have hk : blocksFor 0 = 0 := by decide
  rw [allocateBlocks_of_enough s 0 (by rw [hk]; exact Nat.zero_le _), hk]
  simp only [List.take_zero, Nat.zero_sub, List.drop_zero, List.append_nil]

/-- C19 as amended (empty content is treated as out of space):
`allocateBlocks(0)` returns the empty vector and leaves the state as it was.
`createFile` reads the content only after the capacity guard passed and the
name was found new, and answers an empty content with "Not enough space".
`copyFromWindows` reads the file once the guard passed and tests the name
afterwards: an empty file is answered with "Not enough space" when its name is
new and with "Exists." when the name is already in the index.  Either way the
state is returned as it was.  `modifyFile` of an existing entry with an empty
content takes the restore branch and leaves every size as it was. -/
theorem empty_content_is_refused :
    (∀ s : VirtualFileSystem, s.allocateBlocks 0 = ([], s)) ∧
    (∀ (s : VirtualFileSystem) (name : String),
      ¬ diskFull s → indexCount s name = false →
        s.createFile name [] = (Message.notEnoughSpace, s)) ∧
    (∀ (s : VirtualFileSystem) (path : String),
      ¬ diskFull s →
        (indexCount s (fileNameOf path) = false →
          s.copyFromWindows path (some []) = (Message.notEnoughSpace, s)) ∧
        (indexCount s (fileNameOf path) = true →
          s.copyFromWindows path (some []) = (Message.fileExists, s))) ∧
    (∀ (s : VirtualFileSystem) (p : Nat) (j : DirNode),
      s.directory.get? (indexOfPosition p) = some j →
        (s.modifyFile p []).1 = Message.restoring ∧
        (s.modifyFile p []).2.directory = s.directory) := by
  have hstore : ∀ (s : VirtualFileSystem) (name : String) (ok : Message),
      indexCount s name = false → s.store name [] ok = (Message.notEnoughSpace, s) := by
    intro s name ok hnew
    have h0 : (s.allocateBlocks ([] : List Byte).length).1 = [] := by
      rw [List.length_nil, allocateBlocks_zero]
    rw [store_of_empty_alloc s name [] ok hnew h0, List.length_nil, allocateBlocks_zero]
  refine ⟨allocateBlocks_zero, ?_, ?_, ?_⟩
  · intro s name hf hc
    unfold createFile
    rw [if_neg hf, hstore s name _ hc]
  · intro s path hf
    unfold copyFromWindows
    rw [if_neg hf]
    simp only []
    constructor
    · intro hc
      rw [hstore s _ _ hc]
    · intro hc
      rw [store_of_exists s _ [] _ hc]
  · intro s p j hj
    rw [modifyFile_of_valid s p [] j hj]
    simp only [List.length_nil, allocateBlocks_zero, List.isEmpty_nil, if_true, writeToDisk]
    refine ⟨trivial, ?_⟩
    rw [(allocateBlocks_frame _ _).2.1]
    rfl

/-- Witness for C19: an empty file on the fresh system, and an empty new
content for a one-byte file. -/
theorem empty_content_is_refused_witness :
    ¬ diskFull init ∧ indexCount init "a" = false ∧
    init.createFile "a" [] = (Message.notEnoughSpace, init) ∧
    (init.createFile "a" [5]).2.directory.get? (indexOfPosition 1) = some ⟨0, ⟨"a", [0], 1⟩⟩ ∧
    ((init.createFile "a" [5]).2.modifyFile 1 []).1 = Message.restoring :=
  have hj : (init.createFile "a" [5]).2.directory.get? (indexOfPosition 1)
      = some ⟨0, ⟨"a", [0], 1⟩⟩ := by decide!
  ⟨not_diskFull_init, rfl,
    empty_content_is_refused.2.1 init "a" not_diskFull_init rfl, hj,
    (empty_content_is_refused.2.2.2 _ 1 _ hj).1⟩

/-- C19 as stated fails for an empty host file whose name is taken.  Once a
file "a" exists, `copyFromWindows` of the empty file at `docs/a` passes the
capacity guard, reads the file, and is refused at the name test with
"Exists.", not with "Not enough space". -/
theorem empty_file_copy_refused_as_exists :
    Reachable (run init [Op.createFile "a" [5]]) ∧
    ¬ diskFull (run init [Op.createFile "a" [5]]) ∧
    fileNameOf "docs/a" = "a" ∧
    ((run init [Op.createFile "a" [5]]).copyFromWindows "docs/a" (some [])).1
      = Message.fileExists ∧
    ((run init [Op.createFile "a" [5]]).copyFromWindows "docs/a" (some [])).1
      ≠ Message.notEnoughSpace := by
  have h : ¬ diskFull (run init [Op.createFile "a" [5]]) ∧
      fileNameOf "docs/a" = "a" ∧
      ((run init [Op.createFile "a" [5]]).copyFromWindows "docs/a" (some [])).1
        = Message.fileExists := by
    decide!
  refine ⟨reachable_run _ _ Reachable.init, h.1, h.2.1, h.2.2, ?_⟩
  rw [h.2.2]; decide

/-! ## Modifying a one-block file -/

theorem reachable_of_withoutModify (s : VirtualFileSystem) (h : ReachableWithoutModify s) :
    Reachable s := by
  induction h with
  | init => exact Reachable.init
  | createFile s name data _ ih => exact Reachable.step s (Op.createFile name data) ih
  | copyFromWindows s path file _ ih => exact Reachable.step s (Op.copyFromWindows path file) ih
  | deleteFile s p _ ih => exact Reachable.step s (Op.deleteFile p) ih

/-- Without modify requests no index is held twice. -/
theorem withoutModify_nodup (s : VirtualFileSystem) (h : ReachableWithoutModify s) :
    (allIndices s).Nodup := by
  induction h with
  | init =>
    unfold allIndices entries
    rw [init_freeBlocks, init_freedBlocks]
    have hd : init.directory = [] := rfl
    rw [hd]
    simp only [List.append_nil, List.map_nil, List.flatMap_nil]
    exact List.nodup_range' 0 blockCount
  | createFile s name data _ ih => exact (createFile_perm s name data).nodup_iff.mpr ih
  | copyFromWindows s path file _ ih =>
    exact (copyFromWindows_perm s path file).nodup_iff.mpr ih
  | deleteFile s p _ ih => exact (deleteFile_perm s p).nodup_iff.mpr ih

/-- In a state reached without modify requests, reading the entry that a
successful `createFile` or `copyFromWindows` appended returns the content. -/
theorem create_reads_back_without_modify (s : VirtualFileSystem)
    (hs : ReachableWithoutModify s) :
    (∀ (name : String) (data : List Byte),
      (s.createFile name data).1 = Message.created →
        readFromDisk (s.createFile name data).2
          ⟨name, (s.allocateBlocks data.length).1, data.length⟩ = data) ∧
    (∀ (path : String) (data : List Byte),
      (s.copyFromWindows path (some data)).1 = Message.copiedIn →
        readFromDisk (s.copyFromWindows path (some data)).2
          ⟨fileNameOf path, (s.allocateBlocks data.length).1, data.length⟩ = data) := by
  have hnd : (s.freeBlocks ++ s.freedBlocks).Nodup :=
    List.Nodup.of_append_left (withoutModify_nodup s hs)
  exact create_reads_back_of_nodup s
    ((List.perm_append_comm.nodup_iff).mp hnd)

/-- When the block lists of all entries together hold no index twice, two
entries at different list positions share no block. -/
theorem blocks_disjoint_of_nodup (l : List FileEntry) (h : (l.flatMap FileEntry.blocks).Nodup)
    (i k : Nat) (hi : i < l.length) (hk : k < l.length) (hne : k ≠ i) (b : Nat)
    (hbi : b ∈ l[i].blocks) : b ∉ l[k].blocks := by
  intro hbk
  have hc := flatMap_eraseIdx_count b l i hi
  have h1 : 1 ≤ (l[i].blocks).count b := List.count_pos_iff.mpr hbi
  have hmem : l[k] ∈ l.eraseIdx i := by
    rw [List.mem_eraseIdx_iff_getElem]
    exact ⟨k, hk, hne, rfl⟩
  have h2 : 1 ≤ ((l.eraseIdx i).flatMap FileEntry.blocks).count b := by
    apply List.count_pos_iff.mpr
    rw [List.mem_flatMap]
    exact ⟨l[k], hmem, hbk⟩
  have h3 := List.nodup_iff_count_le_one.mp h b
  omega

/-- Releasing one block and asking for one block returns that block and puts
both pools back as they were. -/
theorem allocate_after_release_one (s : VirtualFileSystem) (b n : Nat)
    (h : blocksFor n = 1) : (s.freeAllocatedBlocks [b]).allocateBlocks n = ([b], s) := by
  have hfr : (s.freeAllocatedBlocks [b]).freedBlocks = b :: s.freedBlocks := rfl
  have hf : (s.freeAllocatedBlocks [b]).freeBlocks = s.freeBlocks := rfl
  rw [allocateBlocks_of_enough _ n (by rw [h, hfr, List.length_cons]; omega), h, hfr, hf]
  simp [freeAllocatedBlocks]

theorem getElem_of_get? {α : Type} (l : List α) (i : Nat) (x : α) (h : l.get? i = some x) :
    ∃ hlt : i < l.length, l[i] = x := by
  have hlt := get?_lt_of_eq_some l i x h
  refine ⟨hlt, ?_⟩
  have h2 := List.get?_eq_get hlt
  rw [h] at h2
  simpa using h2.symm

/-- The state after a one-block entry at list index `i` is modified with a
content of 1 to `BLOCK_SIZE` bytes. -/
theorem modifyFile_single_block (s : VirtualFileSystem) (i addr : Nat) (name : String)
    (b size : Nat) (data : List Byte)
    (hidx : indexOfPosition (i + 1) = i)
    (hj : s.directory.get? i = some ⟨addr, ⟨name, [b], size⟩⟩)
    (h1 : 1 ≤ data.length) (h2 : data.length ≤ BLOCK_SIZE) :
    s.modifyFile (i + 1) data
      = (Message.modified,
          { disk := writeLoop data [b] 0 s.disk
            freeBlocks := s.freeBlocks
            freedBlocks := s.freedBlocks
            directory := setEntry s.directory i (fun f => f.setSize data.length)
            directoryIndex := s.directoryIndex
            nextAddr := s.nextAddr }) := by
  have hb1 : blocksFor data.length = 1 := by
    unfold blocksFor BLOCK_SIZE at *; omega
  have hj2 : s.directory.get? (indexOfPosition (i + 1)) = some ⟨addr, ⟨name, [b], size⟩⟩ := by
    rw [hidx]; exact hj
  rw [modifyFile_of_valid s (i + 1) data _ hj2]
  simp only [allocate_after_release_one s b _ hb1, hidx]
  simp [writeToDisk]

/-- C20 (a single-block modify is exact): in a state reached by create and
delete requests only, for an entry at list index `i` (position `i + 1`) that
owns exactly one block `b` and a new content of 1 to `BLOCK_SIZE` bytes,
`modifyFile` succeeds; after the release `b` is the top of the LIFO pool and
the allocation returns `[b]`; both pools end as they were; the entry keeps its
block and gets the new size; reading it returns exactly the new content; and
every other node is unchanged and reads as before. -/
theorem single_block_modify_exact (s : VirtualFileSystem) (hs : ReachableWithoutModify s)
    (i addr : Nat) (name : String) (b size : Nat) (data : List Byte)
    (hj : s.directory.get? i = some ⟨addr, ⟨name, [b], size⟩⟩)
    (h1 : 1 ≤ data.length) (h2 : data.length ≤ BLOCK_SIZE) :
    (s.modifyFile (i + 1) data).1 = Message.modified ∧
    (s.freeAllocatedBlocks [b]).freedBlocks.head? = some b ∧
    ((s.freeAllocatedBlocks [b]).allocateBlocks data.length).1 = [b] ∧
    (s.modifyFile (i + 1) data).2.freeBlocks = s.freeBlocks ∧
    (s.modifyFile (i + 1) data).2.freedBlocks = s.freedBlocks ∧
    (s.modifyFile (i + 1) data).2.directory.get? i
      = some ⟨addr, ⟨name, [b], data.length⟩⟩ ∧
    readFromDisk (s.modifyFile (i + 1) data).2 ⟨name, [b], data.length⟩ = data ∧
    (∀ k m, k ≠ i → s.directory.get? k = some m →
      (s.modifyFile (i + 1) data).2.directory.get? k = some m ∧
      readFromDisk (s.modifyFile (i + 1) data).2 m.entry = readFromDisk s m.entry) := by
  have hn := reachable_directory_length s (reachable_of_withoutModify s hs)
  have hmax : MAX_DIRECTORY_ENTRIES = 2097 := by decide
  obtain ⟨hlt, hji⟩ := getElem_of_get? _ _ _ hj
  have hidx : indexOfPosition (i + 1) = i := by
    rw [indexOfPosition_of_pos (i + 1) (by omega) (by omega)]
    omega
  have hb1 : blocksFor data.length = 1 := by
    unfold blocksFor BLOCK_SIZE at *; omega
  rw [modifyFile_single_block s i addr name b size data hidx hj h1 h2]
  refine ⟨rfl, rfl, ?_, rfl, rfl, ?_, ?_, ?_⟩
  · rw [allocate_after_release_one s b _ hb1]
  · simp only [setEntry, List.get?_eq_getElem?, List.getElem?_modify_eq]
    rw [← List.get?_eq_getElem?, hj]
    rfl
  · have h := readLoop_writeLoop data [b] 0 s.disk [] (List.nodup_singleton b)
      (by simp only [List.length_singleton]; omega)
    simpa [readFromDisk, FileEntry.getBlocks, FileEntry.getSize] using h
  · intro k m hk hm
    obtain ⟨hklt, hkm⟩ := getElem_of_get? _ _ _ hm
    constructor
    · simp only [setEntry, List.get?_eq_getElem?]
      rw [List.getElem?_modify_ne _ _ (fun e => hk e.symm), ← List.get?_eq_getElem?, hm]
    · have hnd : ((entries s).flatMap FileEntry.blocks).Nodup :=
        List.Nodup.of_append_right (withoutModify_nodup s hs)
      have hli : i < (entries s).length := by
        unfold entries; rw [List.length_map]; exact hlt
      have hlk : k < (entries s).length := by
        unfold entries; rw [List.length_map]; exact hklt
      have hei : (entries s)[i] = ⟨name, [b], size⟩ := by
        simp only [entries, List.getElem_map, hji]
      have hek : (entries s)[k] = m.entry := by
        simp only [entries, List.getElem_map, hkm]
      have hdis := blocks_disjoint_of_nodup (entries s) hnd i k hli hlk hk b
        (by rw [hei]; exact List.mem_singleton.mpr rfl)
      rw [hek] at hdis
      unfold readFromDisk FileEntry.getBlocks FileEntry.getSize
      apply readLoop_congr
      intro c hc x hx
      apply writeLoop_frame
      intro c2 hc2
      rw [List.mem_singleton] at hc2
      subst hc2
      have hne : c2 ≠ c := fun e => hdis (e ▸ hc)
      exact blockOffset_disjoint c c2 hne x hx.1 hx.2

/-- Witness for C20: the first of two one-byte files gets a two-byte content. -/
theorem single_block_modify_exact_witness :
    ReachableWithoutModify ((init.createFile "a" [5]).2.createFile "b" [6]).2 ∧
    ((init.createFile "a" [5]).2.createFile "b" [6]).2.directory.get? 0
      = some ⟨0, ⟨"a", [0], 1⟩⟩ ∧
    1 ≤ ([7, 8] : List Byte).length ∧ ([7, 8] : List Byte).length ≤ BLOCK_SIZE ∧
    (((init.createFile "a" [5]).2.createFile "b" [6]).2.modifyFile (0 + 1) [7, 8]).1
      = Message.modified ∧
    readFromDisk (((init.createFile "a" [5]).2.createFile "b" [6]).2.modifyFile (0 + 1)
      [7, 8]).2 ⟨"a", [0], ([7, 8] : List Byte).length⟩ = [7, 8] :=
  have hs : ReachableWithoutModify ((init.createFile "a" [5]).2.createFile "b" [6]).2 :=
    ReachableWithoutModify.createFile _ "b" [6]
      (ReachableWithoutModify.createFile _ "a" [5] ReachableWithoutModify.init)
  have hj : ((init.createFile "a" [5]).2.createFile "b" [6]).2.directory.get? 0
      = some ⟨0, ⟨"a", [0], 1⟩⟩ := by decide!
  ⟨hs, hj, by decide, by decide,
    (single_block_modify_exact _ hs 0 0 "a" 0 1 [7, 8] hj (by decide) (by decide)).1,
    (single_block_modify_exact _ hs 0 0 "a" 0 1 [7, 8] hj (by decide)
      (by decide)).2.2.2.2.2.2.1⟩

end VFS
